import Mathlib

/-!
Verification of the torrent client core against its specification.

The Go sources are shallowly embedded: machine integers become Int or Nat
(Go's int64 arithmetic never overflows on the values considered here),
Go maps become association lists iterated in insertion order, and
fallible operations return Option.  Functions of the repository that are
referenced but whose bodies are not part of the provided sources are
modelled from the specification and marked as such in their doc comments.
-/

namespace TorrentProofs

/-! ## Dial timeouts (client.go, reducedDialTimeout / dialTimeout)

Durations are modelled as Int nanosecond counts.  Go's integer division
truncates toward zero, which is Int.tdiv.  The constant minDialTimeout is
declared outside the provided sources, so it is kept as a parameter; the
claims about reducedDialTimeout are parametric in it anyway. -/

/-- Embedding of client.go's reducedDialTimeout: the divisor is the Go
integer quotient (pendingPeers+halfOpenLimit)/halfOpenLimit and the result
is raised to minDialTimeout when it falls below it. -/
def reducedDialTimeout (mx halfOpenLimit pendingPeers minDialTimeout : Int) : Int :=
  let ret := mx.tdiv ((pendingPeers + halfOpenLimit).tdiv halfOpenLimit)
  if ret < minDialTimeout then minDialTimeout else ret

/-- The reduced dial timeout as the specification sentence words it: the
nominal timeout divided by the ceiling of (pending+halfOpenLimit)/halfOpenLimit,
floored at minDialTimeout.  Stated only to be compared with the source
embedding reducedDialTimeout. -/
def specReducedDialTimeout (mx halfOpenLimit pendingPeers minDialTimeout : Int) : Int :=
  let ret := mx.tdiv ((pendingPeers + halfOpenLimit + (halfOpenLimit - 1)).tdiv halfOpenLimit)
  if ret < minDialTimeout then minDialTimeout else ret

/-! ## Request scheduler (request-strategy/order.go)

The scheduler is embedded as executable functions.  Go maps are modelled
as association lists iterated in insertion order (Go leaves the range
order of a map unspecified; the concrete scenarios proved below do not
depend on it).  Go's sort.Slice is modelled by an insertion sort; the
comparison functions used by the scheduler are total orders on the
concrete inputs (distinct peer ids, distinct torrent stable ids), for
which every sorting algorithm produces the same sorted list.  The panics
of the source (duplicate request added, leftover requestable pieces,
leftover pending chunks) are modelled by a Boolean flag threaded through
the computation. -/

namespace RequestStrategy

/-- types.ChunkSpec: begin and length of a chunk within its piece. -/
structure ChunkSpec where
  start : Nat
  length : Nat
deriving DecidableEq, Repr

/-- types.Request: a piece index together with a chunk spec. -/
structure Request where
  index : Nat
  chunk : ChunkSpec
deriving DecidableEq, Repr

/-- request_strategy.Peer: the peer snapshot handed to the scheduler.
The HasExistingRequest and PieceAllowedFast function fields are nil-able
in Go and therefore Option-valued here.  DownloadRate is a float64 in Go;
the scheduler only compares rates, and the rates appearing in the claims
are small integers on which the comparison is exact, so Int is used. -/
structure Peer where
  hasPiece : Nat → Bool
  maxRequests : Nat
  hasExistingRequest : Option (Request → Bool)
  choking : Bool
  pieceAllowedFast : Option (Nat → Bool)
  downloadRate : Int
  age : Int
  id : Nat

/-- Modelled from the spec: requestsPeer.canRequestPiece is repository
code not present in the provided sources (only its callers are).  The
spec's peer snapshot ties requestability of a piece to possession of the
piece, and the scheduler walk calls a piece's eligible peers exactly the
peers that have it. -/
def Peer.canRequestPiece (p : Peer) (i : Nat) : Bool :=
  p.hasPiece i

/-- Modelled from the spec: Peer.pieceAllowedFastOrDefault is repository
code not present in the provided sources.  Per the spec's Phase B, a peer
whose piece is not "allowed-fast" makes us interested and is skipped while
choking; the fast extension is disabled by default (client.go keeps the
reserved bit off), so a nil PieceAllowedFast defaults to false. -/
def Peer.pieceAllowedFastOrDefault (p : Peer) (i : Nat) : Bool :=
  match p.pieceAllowedFast with
  | some f => f i
  | none => false

/-- request_strategy.Piece: the piece snapshot handed to the scheduler.
IterPendingChunks is a Go iteration callback; it is modelled by the list
of chunk specs it yields (a nil iterator yields the empty list). -/
structure Piece where
  request : Bool
  priority : Int
  partialFlag : Bool
  availability : Int
  length : Int
  numPendingChunks : Nat
  iterPendingChunks : List ChunkSpec

/-- request_strategy.Torrent.  The Capacity field is a pointer to a
function returning a pointer to a shared byte counter; torrents sharing
the pointer share the counter.  It is modelled by an optional pair of a
sharing key and the counter value the function returns. -/
structure Torrent where
  pieces : List Piece
  capacity : Option (Nat × Int)
  peers : List Peer
  maxUnverifiedBytes : Int
  stableId : Nat

/-- PeerNextRequestState: the per-peer output of the scheduler.  The Go
request set is modelled as a duplicate-free list in insertion order. -/
structure PeerNextRequestState where
  interested : Bool
  requests : List Request
deriving DecidableEq, Repr

/-- requestsPeer: a peer together with its accumulating next state. -/
structure RequestsPeer where
  peer : Peer
  nextState : PeerNextRequestState
  requestablePiecesRemaining : Int

/-- requestsPeer.canFitRequest from order.go. -/
def RequestsPeer.canFitRequest (rp : RequestsPeer) : Bool :=
  rp.nextState.requests.length < rp.peer.maxRequests

/-- requestsPeer.addNextRequest from order.go.  The Go code panics when
the request is already present; the Boolean result records that panic. -/
def RequestsPeer.addNextRequest (rp : RequestsPeer) (r : Request) : RequestsPeer × Bool :=
  if rp.nextState.requests.contains r then
    (rp, true)
  else
    ({ rp with nextState :=
        { rp.nextState with requests := rp.nextState.requests ++ [r] } }, false)

/-- multiless: a pending comparison, none while still undecided. -/
def mlThen (acc : Option Bool) (l r : Int) : Option Bool :=
  match acc with
  | some b => some b
  | none => if l < r then some true else if r < l then some false else none

/-- multiless Bool step: false sorts before true. -/
def mlThenBool (acc : Option Bool) (l r : Bool) : Option Bool :=
  mlThen acc (if l then 1 else 0) (if r then 1 else 0)

/-- multiless MustLess.  The Go library panics when the comparison is
undecided; the scheduler only ever resolves ties through distinct final
keys (piece index and torrent stable id, or peer id), so the undecided
case is unreachable there and is mapped to false. -/
def mustLess (acc : Option Bool) : Bool :=
  acc.getD false

/-- One entry of the scheduler's flat (torrent, piece) list.  The torrent
is referenced by its index in the DoRequests argument. -/
structure FlatPiece where
  ti : Nat
  index : Nat
  piece : Piece
  stableId : Nat

/-- ClientPieceOrder.less from order.go, as the multiless chain
Int(j.Priority, i.Priority), Bool(j.Partial, i.Partial),
Int64(i.Availability, j.Availability), Int(i.index, j.index),
Uintptr(i.t.StableId, j.t.StableId). -/
def less (i j : FlatPiece) : Bool :=
  mustLess (mlThen (mlThen (mlThen (mlThenBool
    (mlThen none j.piece.priority i.piece.priority)
    j.piece.partialFlag i.piece.partialFlag)
    i.piece.availability j.piece.availability)
    ((i.index : Int)) ((j.index : Int)))
    ((i.stableId : Int)) ((j.stableId : Int)))

/-- The sort cascade exactly as the specification words it, first
tiebreak first: descending priority, partial pieces before non-partial,
ascending availability, ascending piece index, ascending torrent stable
id.  Stated only to be compared with the source embedding less. -/
def specCascadeLess (i j : FlatPiece) : Bool :=
  if i.piece.priority ≠ j.piece.priority then j.piece.priority < i.piece.priority
  else if i.piece.partialFlag ≠ j.piece.partialFlag then i.piece.partialFlag
  else if i.piece.availability ≠ j.piece.availability then
    i.piece.availability < j.piece.availability
  else if i.index ≠ j.index then i.index < j.index
  else if i.stableId ≠ j.stableId then i.stableId < j.stableId
  else false

/-- Insertion of one element for the insertion sort. -/
def insertSorted (lt : α → α → Bool) (a : α) : List α → List α
  | [] => [a]
  | b :: l => if lt a b then a :: b :: l else b :: insertSorted lt a l

/-- Model of Go's sort.Slice.  For the comparison functions used by the
scheduler the order is total on the inputs considered, so the sorted
result is the same for every sorting algorithm. -/
def sortSlice (lt : α → α → Bool) : List α → List α
  | [] => []
  | a :: l => insertSorted lt a (sortSlice lt l)

/-- peersForPieceRequests: a peer with its request count within the
current piece.  The Go slice holds pointers, so a peer keeps its identity
across the sorts; identity is modelled by the index the peer had in the
torrent's peer slice. -/
structure PFP where
  origIdx : Nat
  requestsInPiece : Int
  rp : RequestsPeer

/-- peersForPieceRequests.addNextRequest: delegate to the peer and count
the request against the current piece. -/
def PFP.addNextRequest (e : PFP) (r : Request) : PFP × Bool :=
  let (rp', dup) := e.rp.addNextRequest r
  ({ e with requestsInPiece := e.requestsInPiece + 1, rp := rp' }, dup)

/-- sortPeersForPiece's comparison from allocatePendingChunks, as the
multiless chain Int(i.requestsInPiece, j.requestsInPiece),
Int(i.requestablePiecesRemaining, j.requestablePiecesRemaining),
Float64(j.DownloadRate, i.DownloadRate), optionally Bool(jHas, iHas),
Int64(j.Age, i.Age), Uintptr(i.Id, j.Id). -/
def sortPeersLess (byHasRequest : Option Request) (a b : PFP) : Bool :=
  let acc := mlThen none a.requestsInPiece b.requestsInPiece
  let acc := mlThen acc a.rp.requestablePiecesRemaining b.rp.requestablePiecesRemaining
  let acc := mlThen acc b.rp.peer.downloadRate a.rp.peer.downloadRate
  let acc :=
    match byHasRequest with
    | some r => mlThenBool acc (b.rp.nextState.requests.contains r)
        (a.rp.nextState.requests.contains r)
    | none => acc
  let acc := mlThen acc b.rp.peer.age a.rp.peer.age
  mustLess (mlThen acc ((a.rp.peer.id : Int)) ((b.rp.peer.id : Int)))

/-- Update the peer with the given identity, wherever it sits. -/
def updatePFP (l : List PFP) (idx : Nat) (f : PFP → PFP) : List PFP :=
  l.map fun e => if e.origIdx = idx then f e else e

/-- The peer loop of the preallocation phase of allocatePendingChunks:
every peer already claiming the request (and fitting it, and able to
request the piece) re-receives it; the last such peer is recorded as the
chunk's preallocated holder. -/
def phaseAPeers (pieceIdx : Nat) (req : Request) :
    List PFP → Option Nat → Bool → List PFP × Option Nat × Bool
  | [], pre, pan => ([], pre, pan)
  | e :: rest, pre, pan =>
    if (match e.rp.peer.hasExistingRequest with
        | none => false
        | some h => h req) &&
       e.rp.canFitRequest && e.rp.peer.canRequestPiece pieceIdx then
      let (e', dup) := e.addNextRequest req
      let (rest', pre', pan') := phaseAPeers pieceIdx req rest (some e.origIdx) (pan || dup)
      (e' :: rest', pre', pan')
    else
      let (rest', pre', pan') := phaseAPeers pieceIdx req rest pre pan
      (e :: rest', pre', pan')

/-- Go map write preallocated[spec] = peer: overwrite the key if present,
otherwise append in insertion order. -/
def setChunkAssoc (l : List (ChunkSpec × Nat)) (k : ChunkSpec) (v : Nat) :
    List (ChunkSpec × Nat) :=
  if l.any (fun e => e.1 = k) then l.map (fun e => if e.1 = k then (k, v) else e)
  else l ++ [(k, v)]

/-- One chunk of the preallocation phase. -/
def phaseA (pieceIdx : Nat) (st : List PFP × List (ChunkSpec × Nat) × Bool)
    (spec : ChunkSpec) : List PFP × List (ChunkSpec × Nat) × Bool :=
  let (pfp, prealloc, pan) := st
  let (pfp', found, pan') := phaseAPeers pieceIdx ⟨pieceIdx, spec⟩ pfp none pan
  match found with
  | some oi => (pfp', setChunkAssoc prealloc spec oi, pan')
  | none => (pfp', prealloc, pan')

/-- The candidate scan shared by the fill and steal phases: the first
peer in sorted order that fits the request and has the piece takes it; a
peer whose piece is not allowed-fast marks us interested first and is
passed over while it is choking.  Returns the updated peers, whether the
request was assigned, and the duplicate-add panic flag. -/
def scanPeers (pieceIdx : Nat) (req : Request) :
    List PFP → List PFP × Bool × Bool
  | [] => ([], false, false)
  | e :: rest =>
    if !e.rp.canFitRequest then
      let (rest', a, d) := scanPeers pieceIdx req rest
      (e :: rest', a, d)
    else if !e.rp.peer.hasPiece pieceIdx then
      let (rest', a, d) := scanPeers pieceIdx req rest
      (e :: rest', a, d)
    else if e.rp.peer.pieceAllowedFastOrDefault pieceIdx then
      let (e', dup) := e.addNextRequest req
      (e' :: rest, true, dup)
    else
      let e' := { e with rp :=
        { e.rp with nextState := { e.rp.nextState with interested := true } } }
      if e.rp.peer.choking then
        let (rest', a, d) := scanPeers pieceIdx req rest
        (e' :: rest', a, d)
      else
        let (e'', dup) := e'.addNextRequest req
        (e'' :: rest, true, dup)

/-- One chunk of the fill phase: preallocated chunks are skipped, all
others are offered to the peers in sorted order, and the pending counter
falls whether or not a peer took the chunk. -/
def phaseB (pieceIdx : Nat) (prealloc : List (ChunkSpec × Nat))
    (st : List PFP × Int × Bool) (spec : ChunkSpec) : List PFP × Int × Bool :=
  let (pfp, remaining, pan) := st
  if prealloc.any (fun e => e.1 = spec) then (pfp, remaining, pan)
  else
    let (pfp2, _, dup) := scanPeers pieceIdx ⟨pieceIdx, spec⟩
      (sortSlice (sortPeersLess none) pfp)
    (pfp2, remaining - 1, pan || dup)

/-- One chunk of the steal phase: the holder's in-piece count falls, the
peers re-sort with the holds-the-request tiebreak, the holder loses the
request, and the chunk is offered to the peers in the new order. -/
def phaseC (pieceIdx : Nat) (st : List PFP × Int × Bool)
    (entry : ChunkSpec × Nat) : List PFP × Int × Bool :=
  let (pfp, remaining, pan) := st
  let req : Request := ⟨pieceIdx, entry.1⟩
  let pfp1 := updatePFP pfp entry.2
    (fun e => { e with requestsInPiece := e.requestsInPiece - 1 })
  let pfp2 := sortSlice (sortPeersLess (some req)) pfp1
  let pfp3 := updatePFP pfp2 entry.2
    (fun e => { e with rp := { e.rp with nextState :=
      { e.rp.nextState with requests := e.rp.nextState.requests.erase req } } })
  let (pfp4, taken, dup) := scanPeers pieceIdx req pfp3
  (pfp4, if taken then remaining - 1 else remaining, pan || dup)

/-- Put the peers back into the torrent's peer order (the Go code
mutates the pointed-to peers, leaving the torrent's slice order alone). -/
def restorePeers (n : Nat) (l : List PFP) : List RequestsPeer :=
  (List.range n).filterMap fun i => (l.find? (fun e => e.origIdx = i)).map (·.rp)

/-- allocatePendingChunks from order.go: preallocate existing requests,
fill the remaining chunks, steal preallocated chunks, then run the
deferred decrement of requestablePiecesRemaining.  The Boolean result
collects the duplicate-add and leftover-pending-chunks panics. -/
def allocatePendingChunks (fp : FlatPiece) (peers : List RequestsPeer) :
    List RequestsPeer × Bool :=
  let pfp0 := peers.enum.map fun e => PFP.mk e.1 0 e.2
  let (pfp1, prealloc, pan1) :=
    fp.piece.iterPendingChunks.foldl (phaseA fp.index) (pfp0, [], false)
  let (pfp2, rem2, pan2) :=
    fp.piece.iterPendingChunks.foldl (phaseB fp.index prealloc)
      (pfp1, (fp.piece.numPendingChunks : Int), pan1)
  let (pfp3, rem3, pan3) := prealloc.foldl (phaseC fp.index) (pfp2, rem2, pan2)
  let pfp4 := pfp3.map fun e =>
    if e.rp.peer.canRequestPiece fp.index then
      { e with rp := { e.rp with
          requestablePiecesRemaining := e.rp.requestablePiecesRemaining - 1 } }
    else e
  (restorePeers peers.length pfp4, pan3 || (rem3 != 0))

/-- orderTorrent: the per-run torrent bookkeeping of DoRequests. -/
structure OrderTorrent where
  maxUnverifiedBytes : Int
  capKey : Option Nat
  unverifiedBytes : Int
  peers : List RequestsPeer

/-- The WalkState threads the shared storage counters, the per-torrent
state, the log of pieces for which allocatePendingChunks ran (torrent
index, piece index and piece length), and the panic flag. -/
structure WalkState where
  storage : List (Nat × Int)
  torrents : List OrderTorrent
  admitted : List (Nat × Nat × Int)
  panicked : Bool

/-- The count of requestable pieces a peer starts a run with: one for
every piece that is wanted, has pending chunks, and the peer can
request. -/
def countRequestable (pieces : List Piece) (p : Peer) : Int :=
  pieces.enum.foldl
    (fun acc e =>
      if e.2.request && (e.2.numPendingChunks != 0) && p.canRequestPiece e.1 then
        acc + 1
      else acc)
    0

/-- A peer's fresh requestsPeer for one run. -/
def initRequestsPeer (pieces : List Piece) (p : Peer) : RequestsPeer :=
  { peer := p
    nextState := { interested := false, requests := [] }
    requestablePiecesRemaining := countRequestable pieces p }

/-- A torrent's fresh orderTorrent for one run. -/
def initTorrent (t : Torrent) : OrderTorrent :=
  { maxUnverifiedBytes := t.maxUnverifiedBytes
    capKey := t.capacity.map (·.1)
    unverifiedBytes := 0
    peers := t.peers.map (initRequestsPeer t.pieces) }

/-- Look a shared storage counter up by its key. -/
def lookupStorage (l : List (Nat × Int)) (k : Nat) : Option Int :=
  (l.find? (fun e => e.1 = k)).map (·.2)

/-- Write a shared storage counter back through its key. -/
def setStorage (l : List (Nat × Int)) (k : Nat) (v : Int) : List (Nat × Int) :=
  l.map fun e => if e.1 = k then (k, v) else e

/-- The storageLeft map of DoRequests: each torrent's capacity function
is evaluated once, on the torrent's first appearance. -/
def initStorage (ts : List Torrent) : List (Nat × Int) :=
  ts.foldl
    (fun acc t =>
      match t.capacity with
      | some kv => if acc.any (fun e => e.1 = kv.1) then acc else acc ++ [kv]
      | none => acc)
    []

/-- The flat (torrent, piece) list DoRequests builds before sorting. -/
def flatPieces (ts : List Torrent) : List FlatPiece :=
  (ts.enum.map fun te =>
    te.2.pieces.enum.map fun pe => FlatPiece.mk te.1 pe.1 pe.2 te.2.stableId).flatten

/-- The piece gates of the walk that run after the storage gate: a piece
that is not wanted or has no pending chunks is skipped, a piece that
would lift the torrent's unverified bytes above a non-zero
MaxUnverifiedBytes is skipped, and an admitted piece has its chunks
allocated and its length charged to the torrent's unverified bytes. -/
def walkAllocate (st : WalkState) (fp : FlatPiece) (t : OrderTorrent) : WalkState :=
  if fp.piece.request = false ∨ fp.piece.numPendingChunks = 0 then st
  else if t.maxUnverifiedBytes ≠ 0 ∧
      t.unverifiedBytes + fp.piece.length > t.maxUnverifiedBytes then st
  else
    let (peers', pan) := allocatePendingChunks fp t.peers
    { st with
      torrents := st.torrents.set fp.ti
        { t with peers := peers'
                 unverifiedBytes := t.unverifiedBytes + fp.piece.length }
      admitted := st.admitted ++ [(fp.ti, fp.index, fp.piece.length)]
      panicked := st.panicked || pan }

/-- One piece of the walk of DoRequests.  A torrent with a shared
storage counter smaller than the piece length skips the piece without
touching the counter; otherwise the counter pays for the piece up front,
even when a later gate skips it. -/
def walkStep (st : WalkState) (fp : FlatPiece) : WalkState :=
  match st.torrents[fp.ti]? with
  | none => st
  | some t =>
    match t.capKey with
    | none => walkAllocate st fp t
    | some k =>
      match lookupStorage st.storage k with
      | none => walkAllocate st fp t
      | some left =>
        if left < fp.piece.length then st
        else walkAllocate
          { st with storage := setStorage st.storage k (left - fp.piece.length) } fp t

/-- Go map write ret[id] = nextState. -/
def setRetAssoc (l : List (Nat × PeerNextRequestState)) (k : Nat)
    (v : PeerNextRequestState) : List (Nat × PeerNextRequestState) :=
  if l.any (fun e => e.1 = k) then l.map (fun e => if e.1 = k then (k, v) else e)
  else l ++ [(k, v)]

/-- The result map of DoRequests, with the source's final check that no
peer still counts requestable pieces folded into the panic flag. -/
def gather (st : WalkState) : List (Nat × PeerNextRequestState) × Bool :=
  st.torrents.foldl
    (fun acc t =>
      t.peers.foldl
        (fun acc rp =>
          (setRetAssoc acc.1 rp.peer.id rp.nextState,
           acc.2 || (rp.requestablePiecesRemaining != 0)))
        acc)
    ([], st.panicked)

/-- The fresh walk state DoRequests starts from. -/
def initState (ts : List Torrent) : WalkState :=
  ⟨initStorage ts, ts.map initTorrent, [], false⟩

/-- The sorted walk of DoRequests: sort the flat piece list and fold the
per-piece step over it. -/
def runWalk (ts : List Torrent) : WalkState :=
  (sortSlice less (flatPieces ts)).foldl walkStep (initState ts)

/-- DoRequests from order.go: build the per-run state, sort the flat
piece list, walk it, and emit every peer's next state keyed by peer id.
The Boolean is true when any of the source's panics would have fired. -/
def DoRequests (ts : List Torrent) : List (Nat × PeerNextRequestState) × Bool :=
  gather (runWalk ts)

/-- The total piece length charged to a torrent by the admitted-pieces
log of a walk. -/
def admittedSum (log : List (Nat × Nat × Int)) (ti : Nat) : Int :=
  log.foldl (fun acc e => if e.1 = ti then acc + e.2.2 else acc) 0

/-- Pending chunks 0..n-1 of unit length, as the scheduler tests build
them with chunkIterRange. -/
def chunkRange (n : Nat) : List ChunkSpec :=
  (List.range n).map fun i => ⟨i, 1⟩

/-- The base peer of the stealing scenario: has every piece, effectively
unlimited request budget (math.MaxInt16), download rate 2. -/
def scenarioBasePeer : Peer :=
  { hasPiece := fun _ => true
    maxRequests := 32767
    hasExistingRequest := none
    choking := false
    pieceAllowedFast := none
    downloadRate := 2
    age := 0
    id := 0 }

/-- The stealee of the stealing scenario: download rate 1, reports every
chunk of the piece as an existing request, id 1. -/
def scenarioStealee : Peer :=
  { scenarioBasePeer with
      downloadRate := 1
      hasExistingRequest := some fun _ => true
      id := 1 }

/-- The input of the stealing-from-a-slower-peer scenario: one torrent,
one requestable piece with 5 pending chunks, and the stealee followed by
the two stealers (ids 2 and 3). -/
def stealingScenario : List Torrent :=
  [{ pieces := [{ request := true
                  priority := 0
                  partialFlag := false
                  availability := 0
                  length := 0
                  numPendingChunks := 5
                  iterPendingChunks := chunkRange 5 }]
     capacity := none
     peers := [scenarioStealee,
               { scenarioBasePeer with id := 2 },
               { scenarioBasePeer with id := 3 }]
     maxUnverifiedBytes := 0
     stableId := 0 }]

/-- A requestable one-chunk piece of length 32 for the capacity
scenario. -/
def capacityPiece : Piece :=
  { request := true
    priority := 0
    partialFlag := false
    availability := 0
    length := 32
    numPendingChunks := 1
    iterPendingChunks := [⟨0, 1⟩] }

/-- The first torrent of the capacity-cap scenario. -/
def capacityTorrent1 : Torrent :=
  { pieces := [capacityPiece], capacity := some (7, 32), peers := []
    maxUnverifiedBytes := 0, stableId := 1 }

/-- The second torrent of the capacity-cap scenario. -/
def capacityTorrent2 : Torrent :=
  { capacityTorrent1 with stableId := 2 }

/-- The capacity-cap scenario: two torrents sharing one storage-capacity
counter (key 7) holding exactly one piece length. -/
def capacityScenario : List Torrent :=
  [capacityTorrent1, capacityTorrent2]

/-- The unverified-ceiling scenario: one torrent with three requestable
pieces of length 32 and maxUnverifiedBytes of two piece lengths. -/
def unverifiedScenario : List Torrent :=
  [{ pieces := [capacityPiece, capacityPiece, capacityPiece], capacity := none
     peers := [], maxUnverifiedBytes := 64, stableId := 1 }]

end RequestStrategy

/-! ## Per-connection request filling (client.go, fillRequests)

The older per-connection scheduler of client.go.  The connection's
outstanding request set is a duplicate-free list; the candidate chunk
requests produced by walking the connection's piece request order are
abstracted as the list they yield. -/

namespace ClientSched

/-- The request-related slice of the connection state used by
fillRequests. -/
structure Connection where
  interested : Bool
  peerChoked : Bool
  requestsLowWater : Nat
  requests : List RequestStrategy.Request
  peerMaxRequests : Nat
deriving DecidableEq, Repr

/-- Modelled from the spec: connection.Request is repository code not in
the provided sources (client.go's fillRequests calls it).  Per the cap
rule, a chunk request is assigned only while the peer's outstanding
requests are below peerMaxRequests; beyond that bound it is simply not
assigned this round.  An already-pending request is left in place. -/
def Connection.request (c : Connection) (r : RequestStrategy.Request) :
    Connection × Bool :=
  if c.peerMaxRequests ≤ c.requests.length then (c, false)
  else if c.requests.contains r then (c, true)
  else ({ c with requests := c.requests ++ [r] }, true)

/-- The addRequest closure of fillRequests: a hard cap of 32 outstanding
requests, then the connection's own Request. -/
def addRequest (c : Connection) (r : RequestStrategy.Request) : Connection × Bool :=
  if 32 ≤ c.requests.length then (c, false)
  else c.request r

/-- The request loop of fillRequests: offer the candidates in piece
request order until addRequest declines to continue. -/
def fillLoop : Connection → List RequestStrategy.Request → Connection
  | c, [] => c
  | c, r :: rest =>
    let (c', again) := addRequest c r
    if again then fillLoop c' rest else c'

/-- fillRequests from client.go: an interested connection that is choked
or above its low-water mark is left alone; otherwise the pending chunks
of the connection's piece request order are offered in order. -/
def fillRequests (c : Connection) (candidates : List RequestStrategy.Request) :
    Connection :=
  if c.interested && (c.peerChoked || c.requestsLowWater < c.requests.length) then c
  else fillLoop c candidates

end ClientSched

/-! ## Reader priorities and piece decay (client.go)

The piece-priority slice of the torrent state.  Priorities are the
ordinals of the spec's {none, normal, readahead, next, now}; the
constants and the torrent helpers (usualPieceSize, havePiece,
pieceComplete, numPieces) live outside the provided sources and are
modelled from the spec: usualPieceSize is the metainfo piece length,
havePiece and pieceComplete hold exactly for verified pieces, numPieces
is the piece count. -/

namespace Priorities

/-- The piece priority ordinals: none, normal, readahead, next, now. -/
def piecePriorityNone : Nat := 0

/-- Priority of a piece wanted with no particular urgency. -/
def piecePriorityNormal : Nat := 1

/-- Priority of a piece inside the readahead window. -/
def piecePriorityReadahead : Nat := 2

/-- Priority of the piece after the one being read. -/
def piecePriorityNext : Nat := 3

/-- Priority of the piece being read. -/
def piecePriorityNow : Nat := 4

/-- The per-piece state the priority pipeline touches. -/
structure PPiece where
  priority : Nat
  complete : Bool
  everHashed : Bool
  hashing : Bool
  queuedForHash : Bool
deriving DecidableEq, Repr

/-- The torrent slice the priority pipeline touches: the metainfo piece
length and the pieces. -/
structure PTorrent where
  pieceLength : Int
  pieces : List PPiece
deriving DecidableEq, Repr

/-- Modelled from the spec: torrent.havePiece / torrent.pieceComplete are
repository code not in the provided sources; a piece is had exactly when
its hash has verified. -/
def PTorrent.havePiece (t : PTorrent) (i : Nat) : Bool :=
  match t.pieces[i]? with
  | some p => p.complete
  | none => false

/-- The projection of a piece the priority theorems track: its priority
and completeness. -/
def priorityView (p : PPiece) : Nat × Bool :=
  (p.priority, p.complete)

/-- readaheadPieces from client.go: the number of pieces to set to
readahead priority after the now and next pieces. -/
def readaheadPieces (readahead pieceLength : Int) : Int :=
  (readahead + pieceLength - 1).tdiv pieceLength - 1

/-- queueFirstHash from client.go, restricted to the piece state: queue a
hash check unless the piece was ever hashed, is hashing, is queued, or is
complete. -/
def queueFirstHash (t : PTorrent) (i : Nat) : PTorrent :=
  match t.pieces[i]? with
  | none => t
  | some p =>
    if p.everHashed || p.hashing || p.queuedForHash || p.complete then t
    else { t with pieces := t.pieces.set i { p with queuedForHash := true } }

/-- The priority effect of pieceChanged from client.go: a complete piece
falls back to priority none; an incomplete piece keeps its priority (the
remaining body of pieceChanged re-pends chunks and pokes connections,
which does not touch any piece's priority). -/
def pieceChanged (t : PTorrent) (i : Nat) : PTorrent :=
  match t.pieces[i]? with
  | none => t
  | some p =>
    if p.complete then
      { t with pieces := t.pieces.set i { p with priority := piecePriorityNone } }
    else t

/-- prioritizePiece from client.go: nothing happens for a piece we have;
otherwise the piece is queued for its first hash, its priority is set,
and pieceChanged runs. -/
def prioritizePiece (t : PTorrent) (i : Nat) (priority : Nat) : PTorrent :=
  if t.havePiece i then t
  else
    let t1 := queueFirstHash t i
    let t2 :=
      match t1.pieces[i]? with
      | none => t1
      | some p => { t1 with pieces := t1.pieces.set i { p with priority := priority } }
    pieceChanged t2 i

/-- raisePiecePriority from client.go: only ever raise. -/
def raisePiecePriority (t : PTorrent) (i : Nat) (priority : Nat) : PTorrent :=
  match t.pieces[i]? with
  | none => t
  | some p => if p.priority < priority then prioritizePiece t i priority else t

/-- The readahead loop of readRaisePiecePriorities: starting after the
next piece, raise k more pieces to readahead priority. -/
def raiseReadahead (t : PTorrent) (index : Nat) (k : Nat) : PTorrent :=
  match k with
  | 0 => t
  | k+1 =>
    if t.pieces.length ≤ index + 1 then t
    else raiseReadahead (raisePiecePriority t (index + 1) piecePriorityReadahead)
      (index + 1) k

/-- readRaisePiecePriorities from client.go: the piece containing the
read offset is raised to now, the next piece to next, and the following
readaheadPieces(5 MiB, pieceLength) pieces to readahead, clipped at the
end of the torrent. -/
def readRaisePiecePriorities (t : PTorrent) (off : Int) : PTorrent :=
  let index := (off.tdiv t.pieceLength).toNat
  let t1 := raisePiecePriority t index piecePriorityNow
  if t.pieces.length ≤ index + 1 then t1
  else
    let t2 := raisePiecePriority t1 (index + 1) piecePriorityNext
    raiseReadahead t2 (index + 1) (readaheadPieces (5 * 1024 * 1024) t.pieceLength).toNat

end Priorities

/-! ## Metadata acquisition (client.go, completedMetadata)

Digests are opaque: the SHA-1 function, the bencode decoding of the info
dictionary (metainfo.Info), and the success of cl.setMetaData (storage
opening, metainfo caching, name filtering) are parameters, because their
bodies are external or outside the provided sources; completedMetadata
only branches on their results. -/

namespace Metadata

/-- The metadata-acquisition slice of the torrent state: the reassembled
info-dictionary bytes, the torrent's infohash, and the installed info. -/
structure TorrentMeta where
  metaData : List Nat
  infoHash : Nat
  info : Option Nat
deriving DecidableEq, Repr

/-- Modelled from the spec: torrent.invalidateMetadata is repository
code not in the provided sources; it discards the metadata buffer so
acquisition restarts from nothing. -/
def invalidateMetadata (t : TorrentMeta) : TorrentMeta :=
  { t with metaData := [] }

/-- completedMetadata from client.go: hash the reassembled metadata and
compare with the infohash; on mismatch invalidate, otherwise decode the
info dictionary (invalidate on failure), then install it through
setMetaData (invalidate on failure). -/
def completedMetadata (sha1 : List Nat → Nat) (decode : List Nat → Option Nat)
    (setMetaDataOk : Nat → Bool) (t : TorrentMeta) : TorrentMeta :=
  if sha1 t.metaData ≠ t.infoHash then invalidateMetadata t
  else
    match decode t.metaData with
    | none => invalidateMetadata t
    | some info =>
      if setMetaDataOk info then { t with info := some info }
      else invalidateMetadata t

/-- A torrent awaiting metadata whose buffer bytes do not decode: its
hash is whatever the digest function says and the infohash below is
chosen to match it. -/
def undecodableMeta : TorrentMeta :=
  { metaData := [1, 2, 3], infoHash := 0, info := none }

end Metadata

/-! ## Torrent registry admission (client.go, AddTorrentSpec) -/

namespace Registry

/-- The registry slice of the client state: the torrent registry keyed
by infohash (values are opaque torrent handles) and the banned-infohash
set. -/
structure ClientState where
  torrents : List (Nat × Nat)
  bannedTorrents : List Nat
deriving DecidableEq, Repr

/-- The errors AddTorrentSpec can surface. -/
inductive AddError where
  | bannedTorrent
  | setup
deriving DecidableEq, Repr

/-- The result quadruple of AddTorrentSpec: the torrent handle, the new
flag, the error, and the client state afterwards. -/
structure AddResult where
  torrent : Option Nat
  isNew : Bool
  err : Option AddError
  state : ClientState
deriving DecidableEq, Repr

/-- Go map read cl.torrents[spec.InfoHash]. -/
def lookupReg (l : List (Nat × Nat)) (k : Nat) : Option Nat :=
  (l.find? (fun e => e.1 = k)).map (·.2)

/-- AddTorrentSpec from client.go: an already-registered infohash
returns the existing torrent with new=false and no error before anything
else is consulted; otherwise a banned infohash errors out; otherwise the
torrent is built and registered.  The construction between the banned
check and the registry insert (newTorrent, setMetaData, the metainfo
cache) spans repository code outside the provided sources and is
abstracted by the setupFails flag and the fresh handle; on a setup error
the code returns before inserting into the registry. -/
def AddTorrentSpec (setupFails : Bool) (fresh : Nat) (cl : ClientState)
    (infoHash : Nat) : AddResult :=
  match lookupReg cl.torrents infoHash with
  | some t => ⟨some t, false, none, cl⟩
  | none =>
    if cl.bannedTorrents.contains infoHash then
      ⟨none, true, some .bannedTorrent, cl⟩
    else if setupFails then ⟨none, true, some .setup, cl⟩
    else ⟨some fresh, true, none,
      { cl with torrents := cl.torrents ++ [(infoHash, fresh)] }⟩

end Registry

/-! ## Bencode (bencode package, Marshal / Unmarshal)

Modelled from the spec: the provided sources hold only the Marshal and
Unmarshal wrappers of the bencode package; the encoder and decoder bodies
are elsewhere in the repository.  The spec treats bencode as black-box
encode/decode of a self-describing tree (BEP 3): byte strings as
length ':' bytes, integers as 'i' decimal 'e', lists as 'l' items 'e'
and dictionaries as 'd' key/value pairs 'e'.  The domain values are that
tree; bytes are modelled as naturals. -/

namespace Bencode

/-- A bencode domain value. -/
inductive Value where
  | int : Int → Value
  | str : List Nat → Value
  | list : List Value → Value
  | dict : List (List Nat × Value) → Value

/-- The decimal digits (ASCII) of a natural, most significant first. -/
def natToDigits (n : Nat) : List Nat :=
  if n < 10 then [n + 48]
  else natToDigits (n / 10) ++ [n % 10 + 48]
termination_by n
decreasing_by exact Nat.div_lt_self (by omega) (by omega)

/-- The decimal digits of an integer, with a leading minus sign when
negative. -/
def intToDigits (n : Int) : List Nat :=
  if n < 0 then 45 :: natToDigits (-n).toNat else natToDigits n.toNat

/-- A byte string's encoding: decimal length, a colon, the bytes. -/
def encodeStr (s : List Nat) : List Nat :=
  natToDigits s.length ++ 58 :: s

mutual

/-- The bencode encoding of a value. -/
def encode : Value → List Nat
  | .int n => 105 :: (intToDigits n ++ [101])
  | .str s => encodeStr s
  | .list vs => 108 :: (encodeItems vs ++ [101])
  | .dict es => 100 :: (encodeEntries es ++ [101])

/-- The concatenated encodings of a list's items. -/
def encodeItems : List Value → List Nat
  | [] => []
  | v :: vs => encode v ++ encodeItems vs

/-- The concatenated encodings of a dictionary's key/value pairs. -/
def encodeEntries : List (List Nat × Value) → List Nat
  | [] => []
  | e :: es => encodeStr e.1 ++ (encode e.2 ++ encodeEntries es)

end

mutual

/-- A fuel measure for the parser: enough fuel to parse a value. -/
def sizeB : Value → Nat
  | .int _ => 1
  | .str _ => 1
  | .list vs => 1 + sizeItems vs
  | .dict es => 1 + sizeEntries es

/-- Fuel measure for a list of items. -/
def sizeItems : List Value → Nat
  | [] => 0
  | v :: vs => 1 + sizeB v + sizeItems vs

/-- Fuel measure for dictionary entries. -/
def sizeEntries : List (List Nat × Value) → Nat
  | [] => 0
  | e :: es => 1 + sizeB e.2 + sizeEntries es

end

/-- An ASCII decimal digit. -/
def isDigit (c : Nat) : Bool :=
  48 ≤ c && c ≤ 57

/-- Accumulate decimal digits greedily. -/
def parseNatAux : List Nat → Nat → Nat × List Nat
  | [], acc => (acc, [])
  | c :: rest, acc =>
    if isDigit c then parseNatAux rest (acc * 10 + (c - 48)) else (acc, c :: rest)

/-- Parse a non-empty run of decimal digits. -/
def parseNat : List Nat → Option (Nat × List Nat)
  | [] => none
  | c :: rest => if isDigit c then some (parseNatAux rest (c - 48)) else none

/-- Parse the body of an integer after the leading 'i', up to the
closing 'e'. -/
def parseIntBody (input : List Nat) : Option (Int × List Nat) :=
  match input with
  | [] => none
  | c :: rest =>
    if c = 45 then
      match parseNat rest with
      | some (n, e :: rest') => if e = 101 then some (-(n : Int), rest') else none
      | _ => none
    else
      match parseNat (c :: rest) with
      | some (n, e :: rest') => if e = 101 then some ((n : Int), rest') else none
      | _ => none

/-- Parse a byte string: decimal length, colon, that many bytes. -/
def parseStr (input : List Nat) : Option (List Nat × List Nat) :=
  match parseNat input with
  | some (n, c :: rest) =>
    if c = 58 then
      (if n ≤ rest.length then some (rest.take n, rest.drop n) else none)
    else none
  | _ => none

mutual

/-- The recursive-descent bencode parser.  Fuel falls by one on every
call, so any fuel above the value's size measure suffices. -/
def parseVal : Nat → List Nat → Option (Value × List Nat)
  | 0, _ => none
  | f + 1, input =>
    match input with
    | [] => none
    | c :: rest =>
      if c = 105 then (parseIntBody rest).map fun p => (Value.int p.1, p.2)
      else if c = 108 then (parseItems f rest).map fun p => (Value.list p.1, p.2)
      else if c = 100 then (parseEntries f rest).map fun p => (Value.dict p.1, p.2)
      else (parseStr (c :: rest)).map fun p => (Value.str p.1, p.2)

/-- Parse list items up to the closing 'e'. -/
def parseItems : Nat → List Nat → Option (List Value × List Nat)
  | 0, _ => none
  | f + 1, input =>
    match input with
    | [] => none
    | c :: rest =>
      if c = 101 then some ([], rest)
      else
        match parseVal f (c :: rest) with
        | some (v, rest') =>
          match parseItems f rest' with
          | some (vs, rest'') => some (v :: vs, rest'')
          | none => none
        | none => none

/-- Parse dictionary entries up to the closing 'e'. -/
def parseEntries : Nat → List Nat → Option (List (List Nat × Value) × List Nat)
  | 0, _ => none
  | f + 1, input =>
    match input with
    | [] => none
    | c :: rest =>
      if c = 101 then some ([], rest)
      else
        match parseStr (c :: rest) with
        | some (k, rest') =>
          match parseVal f rest' with
          | some (v, rest'') =>
            match parseEntries f rest'' with
            | some (es, rest''') => some ((k, v) :: es, rest''')
            | none => none
          | none => none
        | none => none

end

/-- Marshal: the encoder succeeds on every domain value. -/
def Marshal (v : Value) : Option (List Nat) :=
  some (encode v)

/-- Unmarshal, with the wrapper's trailing-bytes check from the provided
api source: a parse that leaves unconsumed bytes is an error. -/
def Unmarshal (data : List Nat) : Option Value :=
  match parseVal (data.length + 1) data with
  | some (v, []) => some v
  | _ => none

end Bencode

/-! ## Theorems -/

section SchedulerTheorems

open RequestStrategy

/-- A decided multiless computation ignores further Int keys. -/
theorem mlThen_some (b : Bool) (l r : Int) : mlThen (some b) l r = some b := rfl

/-- A decided multiless computation ignores further Bool keys. -/
theorem mlThenBool_some (b : Bool) (l r : Bool) : mlThenBool (some b) l r = some b := rfl

/-- MustLess of a decided computation. -/
theorem mustLess_some (b : Bool) : mustLess (some b) = b := rfl

/-- An Int key decides the comparison as less. -/
theorem mlThen_none_of_lt {l r : Int} (h : l < r) : mlThen none l r = some true := by
  simp [mlThen, h]

/-- An Int key decides the comparison as greater. -/
theorem mlThen_none_of_gt {l r : Int} (h : r < l) : mlThen none l r = some false := by
  have h' : ¬ l < r := by omega
  simp [mlThen, h', h]

/-- An equal Int key leaves the comparison undecided. -/
theorem mlThen_none_of_eq {l r : Int} (h : l = r) : mlThen none l r = none := by
  simp [mlThen, h]

/-- The availability / piece index / stable id tail of the piece sort
cascade agrees with the spec's reading of it. -/
theorem cascadeTail_eq (i j : FlatPiece) :
    mustLess (mlThen (mlThen (mlThen none i.piece.availability j.piece.availability)
        ((i.index : Int)) ((j.index : Int)))
      ((i.stableId : Int)) ((j.stableId : Int)))
    = (if i.piece.availability ≠ j.piece.availability then
         decide (i.piece.availability < j.piece.availability)
       else if i.index ≠ j.index then decide (i.index < j.index)
       else if i.stableId ≠ j.stableId then decide (i.stableId < j.stableId)
       else false) := by
  rcases lt_trichotomy i.piece.availability j.piece.availability with h3 | h3 | h3
  · rw [mlThen_none_of_lt h3, mlThen_some, mlThen_some, mustLess_some,
      if_pos (show i.piece.availability ≠ j.piece.availability by omega)]
    simp [h3]
  · rw [mlThen_none_of_eq h3, if_neg (show ¬ i.piece.availability ≠ j.piece.availability by omega)]
    rcases lt_trichotomy i.index j.index with h4 | h4 | h4
    · rw [mlThen_none_of_lt (by omega : (i.index : Int) < (j.index : Int)), mlThen_some, mustLess_some,
        if_pos (show i.index ≠ j.index by omega)]
      simp [h4]
    · rw [mlThen_none_of_eq (by omega : (i.index : Int) = (j.index : Int)),
        if_neg (show ¬ i.index ≠ j.index by omega)]
      rcases lt_trichotomy i.stableId j.stableId with h5 | h5 | h5
      · rw [mlThen_none_of_lt (by omega : (i.stableId : Int) < (j.stableId : Int)), mustLess_some,
          if_pos (show i.stableId ≠ j.stableId by omega)]
        simp [h5]
      · rw [mlThen_none_of_eq (by omega : (i.stableId : Int) = (j.stableId : Int)),
          if_neg (show ¬ i.stableId ≠ j.stableId by omega)]
        rfl
      · rw [mlThen_none_of_gt (by omega : (j.stableId : Int) < (i.stableId : Int)), mustLess_some,
          if_pos (show i.stableId ≠ j.stableId by omega)]
        simp [show ¬ i.stableId < j.stableId by omega]
    · rw [mlThen_none_of_gt (by omega : (j.index : Int) < (i.index : Int)), mlThen_some, mustLess_some,
        if_pos (show i.index ≠ j.index by omega)]
      simp [show ¬ i.index < j.index by omega]
  · rw [mlThen_none_of_gt h3, mlThen_some, mlThen_some, mustLess_some,
      if_pos (show i.piece.availability ≠ j.piece.availability by omega)]
    simp [show ¬ i.piece.availability < j.piece.availability by omega]

/-- C5: the comparison the scheduler sorts its flat (torrent, piece)
list with orders piece i before piece j exactly when the spec's cascade
does, first tiebreak first: descending priority, partial pieces before
non-partial, ascending availability, ascending piece index, ascending
torrent stable id. -/
theorem less_eq_specCascadeLess (i j : FlatPiece) : less i j = specCascadeLess i j := by
  unfold less specCascadeLess
  rcases lt_trichotomy j.piece.priority i.piece.priority with h1 | h1 | h1
  · rw [mlThen_none_of_lt h1, mlThenBool_some, mlThen_some, mlThen_some, mlThen_some,
      mustLess_some, if_pos (show i.piece.priority ≠ j.piece.priority by omega)]
    simp [h1]
  · rw [mlThen_none_of_eq h1, if_neg (show ¬ i.piece.priority ≠ j.piece.priority by omega)]
    cases hpi : i.piece.partialFlag <;> cases hpj : j.piece.partialFlag
    · rw [show mlThenBool none false false = none by decide, if_neg (by simp)]
      exact cascadeTail_eq i j
    · rw [show mlThenBool none true false = some false by decide, mlThen_some, mlThen_some,
        mlThen_some, mustLess_some, if_pos (by simp)]
    · rw [show mlThenBool none false true = some true by decide, mlThen_some, mlThen_some,
        mlThen_some, mustLess_some, if_pos (by simp)]
    · rw [show mlThenBool none true true = none by decide, if_neg (by simp)]
      exact cascadeTail_eq i j
  · rw [mlThen_none_of_gt h1, mlThenBool_some, mlThen_some, mlThen_some, mlThen_some,
      mustLess_some, if_pos (show i.piece.priority ≠ j.piece.priority by omega)]
    simp [show ¬ j.piece.priority < i.piece.priority by omega]

/-- C1: for the scheduler input of one torrent with one requestable piece
having 5 pending chunks and three peers — a stealee (rate 1, claiming
every chunk as an existing request, id 1) and two stealers (rate 2, ids
2 and 3, all having the piece with unlimited maxRequests) — DoRequests
returns next-states in which the stealee holds exactly 1 request, each
stealer exactly 2, and all three peers are marked interested; none of
the scheduler's internal panics fire. -/
theorem DoRequests_steals_from_slower_peer :
    (DoRequests stealingScenario).1.map
        (fun e => (e.1, e.2.interested, e.2.requests.length))
      = [(1, true, 1), (2, true, 2), (3, true, 2)]
    ∧ (DoRequests stealingScenario).2 = false := by
  exact ⟨rfl, rfl⟩

/-- C4: a piece whose torrent has a shared storage counter is skipped
with the counter untouched when the remaining capacity is below the
piece length, and otherwise pays the piece length out of the counter;
concretely, with two torrents sharing a capacity of exactly one piece
length, the first piece in sort order claims the whole capacity and the
second torrent's piece is skipped entirely. -/
theorem walkStep_storage_capacity :
    (∀ st fp t k left, st.torrents[fp.ti]? = some t → t.capKey = some k →
        lookupStorage st.storage k = some left →
        (left < fp.piece.length → walkStep st fp = st) ∧
        (fp.piece.length ≤ left →
          walkStep st fp =
            walkAllocate
              { st with storage := setStorage st.storage k (left - fp.piece.length) }
              fp t))
    ∧ (runWalk capacityScenario).admitted = [(0, 0, 32)]
    ∧ (runWalk capacityScenario).storage = [(7, 0)]
    ∧ (runWalk capacityScenario).panicked = false := by
  refine ⟨?_, rfl, rfl, rfl⟩
  intro st fp t k left hget hkey hlook
  simp only [walkStep, hget, hkey, hlook]
  constructor
  · intro hlt
    rw [if_pos hlt]
  · intro hle
    rw [if_neg (by omega)]

/-- Witness for the storage-capacity step rule, at the second flat piece
of the capacity scenario once the first has drained the counter: the
remaining capacity 0 is below the piece length 32, so the step leaves
the state untouched. -/
theorem walkStep_storage_capacity_witness :
    walkStep
      { storage := [(7, 0)]
        torrents := capacityScenario.map initTorrent
        admitted := [(0, 0, 32)]
        panicked := false }
      (FlatPiece.mk 1 0 capacityPiece 2)
    = { storage := [(7, 0)]
        torrents := capacityScenario.map initTorrent
        admitted := [(0, 0, 32)]
        panicked := false } := by
  exact (walkStep_storage_capacity.1
    { storage := [(7, 0)]
      torrents := capacityScenario.map initTorrent
      admitted := [(0, 0, 32)]
      panicked := false }
    (FlatPiece.mk 1 0 capacityPiece 2) (initTorrent capacityTorrent2) 7 0
    rfl rfl rfl).1 (by decide)

/-- Appending one admitted piece to the log adds its length to its
torrent's total. -/
theorem admittedSum_append_one (l : List (Nat × Nat × Int)) (e : Nat × Nat × Int) (ti : Nat) :
    admittedSum (l ++ [e]) ti = admittedSum l ti + (if e.1 = ti then e.2.2 else 0) := by
  simp only [admittedSum, List.foldl_append, List.foldl_cons, List.foldl_nil]
  split <;> simp

/-- The per-torrent unverified-bytes bookkeeping survives the piece
gates: every torrent's unverified bytes equal the lengths charged for
its admitted pieces and respect a non-zero ceiling. -/
theorem walkAllocate_unverified_inv (st : WalkState) (fp : FlatPiece) (t : OrderTorrent)
    (hto : st.torrents[fp.ti]? = some t)
    (H : ∀ ti ot, st.torrents[ti]? = some ot →
        ot.unverifiedBytes = admittedSum st.admitted ti ∧
        (ot.maxUnverifiedBytes ≠ 0 → ot.unverifiedBytes ≤ ot.maxUnverifiedBytes)) :
    ∀ ti ot, (walkAllocate st fp t).torrents[ti]? = some ot →
        ot.unverifiedBytes = admittedSum (walkAllocate st fp t).admitted ti ∧
        (ot.maxUnverifiedBytes ≠ 0 → ot.unverifiedBytes ≤ ot.maxUnverifiedBytes) := by
  intro ti ot hot
  unfold walkAllocate at hot ⊢
  by_cases h1 : fp.piece.request = false ∨ fp.piece.numPendingChunks = 0
  · rw [if_pos h1] at hot ⊢
    exact H ti ot hot
  · rw [if_neg h1] at hot ⊢
    by_cases h2 : t.maxUnverifiedBytes ≠ 0 ∧
        t.unverifiedBytes + fp.piece.length > t.maxUnverifiedBytes
    · rw [if_pos h2] at hot ⊢
      exact H ti ot hot
    · rw [if_neg h2] at hot ⊢
      simp only at hot ⊢
      by_cases hti : ti = fp.ti
      · subst hti
        have hlt : fp.ti < st.torrents.length := (List.getElem?_eq_some.mp hto).1
        rw [List.getElem?_set_self hlt] at hot
        cases hot
        have hbase := H _ t hto
        constructor
        · simp [admittedSum_append_one, hbase.1]
        · intro hmax
          simp only at hmax
          push_neg at h2
          have := h2 hmax
          simp only
          omega
      · rw [List.getElem?_set_ne (by omega : fp.ti ≠ ti)] at hot
        have hbase := H ti ot hot
        constructor
        · rw [admittedSum_append_one, if_neg (by omega), hbase.1]
          omega
        · exact hbase.2

/-- The storage gate never touches the unverified-bytes bookkeeping. -/
theorem walkStep_unverified_inv (st : WalkState) (fp : FlatPiece)
    (H : ∀ ti ot, st.torrents[ti]? = some ot →
        ot.unverifiedBytes = admittedSum st.admitted ti ∧
        (ot.maxUnverifiedBytes ≠ 0 → ot.unverifiedBytes ≤ ot.maxUnverifiedBytes)) :
    ∀ ti ot, (walkStep st fp).torrents[ti]? = some ot →
        ot.unverifiedBytes = admittedSum (walkStep st fp).admitted ti ∧
        (ot.maxUnverifiedBytes ≠ 0 → ot.unverifiedBytes ≤ ot.maxUnverifiedBytes) := by
  cases hto : st.torrents[fp.ti]? with
  | none =>
    have heq : walkStep st fp = st := by simp only [walkStep, hto]
    rw [heq]; exact H
  | some t =>
    cases hk : t.capKey with
    | none =>
      have heq : walkStep st fp = walkAllocate st fp t := by simp only [walkStep, hto, hk]
      rw [heq]
      exact walkAllocate_unverified_inv st fp t hto H
    | some k =>
      cases hl : lookupStorage st.storage k with
      | none =>
        have heq : walkStep st fp = walkAllocate st fp t := by
          simp only [walkStep, hto, hk, hl]
        rw [heq]
        exact walkAllocate_unverified_inv st fp t hto H
      | some left =>
        by_cases hlt : left < fp.piece.length
        · have heq : walkStep st fp = st := by
            simp only [walkStep, hto, hk, hl]
            rw [if_pos hlt]
          rw [heq]; exact H
        · have heq : walkStep st fp =
              walkAllocate
                { st with storage := setStorage st.storage k (left - fp.piece.length) } fp t := by
            simp only [walkStep, hto, hk, hl]
            rw [if_neg hlt]
          rw [heq]
          exact walkAllocate_unverified_inv
            { st with storage := setStorage st.storage k (left - fp.piece.length) } fp t hto H

/-- The unverified-bytes bookkeeping holds along any walk. -/
theorem foldl_walkStep_unverified_inv (fps : List FlatPiece) (st : WalkState)
    (H : ∀ ti ot, st.torrents[ti]? = some ot →
        ot.unverifiedBytes = admittedSum st.admitted ti ∧
        (ot.maxUnverifiedBytes ≠ 0 → ot.unverifiedBytes ≤ ot.maxUnverifiedBytes)) :
    ∀ ti ot, (fps.foldl walkStep st).torrents[ti]? = some ot →
        ot.unverifiedBytes = admittedSum (fps.foldl walkStep st).admitted ti ∧
        (ot.maxUnverifiedBytes ≠ 0 → ot.unverifiedBytes ≤ ot.maxUnverifiedBytes) := by
  induction fps generalizing st with
  | nil => exact H
  | cons fp fps ih => exact ih (walkStep st fp) (walkStep_unverified_inv st fp H)

/-- A fresh walk state satisfies the unverified-bytes bookkeeping. -/
theorem initState_unverified_inv (ts : List Torrent)
    (hmax : ∀ t ∈ ts, t.maxUnverifiedBytes ≠ 0 → 0 ≤ t.maxUnverifiedBytes) :
    ∀ ti ot, (initState ts).torrents[ti]? = some ot →
        ot.unverifiedBytes = admittedSum (initState ts).admitted ti ∧
        (ot.maxUnverifiedBytes ≠ 0 → ot.unverifiedBytes ≤ ot.maxUnverifiedBytes) := by
  intro ti ot hot
  simp only [initState, List.getElem?_map] at hot
  cases ht : ts[ti]? with
  | none => rw [ht] at hot; cases hot
  | some t =>
    rw [ht] at hot
    simp only [Option.map_some'] at hot
    cases hot
    have hmem : t ∈ ts := List.getElem?_mem ht
    refine ⟨rfl, fun hne => ?_⟩
    simpa [initTorrent] using hmax t hmem (by simpa [initTorrent] using hne)

/-- C3: along the whole scheduler walk, a torrent's unverified-bytes
total is exactly the summed lengths of its admitted pieces and never
exceeds a non-zero maxUnverifiedBytes; at each step, a requestable piece
that would push a non-zero ceiling over is skipped with nothing charged,
and a zero maxUnverifiedBytes never causes a skip. -/
theorem walk_unverified_ceiling :
    (∀ ts : List Torrent,
      (∀ t ∈ ts, t.maxUnverifiedBytes ≠ 0 → 0 ≤ t.maxUnverifiedBytes) →
      ∀ ti ot, (runWalk ts).torrents[ti]? = some ot →
        ot.unverifiedBytes = admittedSum (runWalk ts).admitted ti ∧
        (ot.maxUnverifiedBytes ≠ 0 → ot.unverifiedBytes ≤ ot.maxUnverifiedBytes))
    ∧ (∀ st fp t, st.torrents[fp.ti]? = some t →
        (fp.piece.request = true → fp.piece.numPendingChunks ≠ 0 →
          t.maxUnverifiedBytes ≠ 0 →
          t.unverifiedBytes + fp.piece.length > t.maxUnverifiedBytes →
          walkAllocate st fp t = st)
        ∧ (t.maxUnverifiedBytes = 0 → fp.piece.request = true →
            fp.piece.numPendingChunks ≠ 0 →
            (walkAllocate st fp t).admitted
              = st.admitted ++ [(fp.ti, fp.index, fp.piece.length)])) := by
  constructor
  · intro ts hmax ti ot hot
    exact foldl_walkStep_unverified_inv _ _ (initState_unverified_inv ts hmax) ti ot hot
  · intro st fp t hto
    constructor
    · intro hreq hnum hmax hover
      unfold walkAllocate
      rw [if_neg (by simp [hreq, hnum]), if_pos ⟨hmax, hover⟩]
    · intro hz hreq hnum
      unfold walkAllocate
      rw [if_neg (by simp [hreq, hnum]), if_neg (by simp [hz])]

/-- Witness for the unverified ceiling: in the concrete scenario with
three 32-byte pieces and a 64-byte cap, the walk admits two pieces and
charges 64; the third piece is skipped by the ceiling; and with a zero
cap a requestable piece is always admitted. -/
theorem walk_unverified_ceiling_witness :
    ((runWalk unverifiedScenario).torrents[0]?
        = some { maxUnverifiedBytes := 64, capKey := none, unverifiedBytes := 64, peers := [] }
      ∧ (64 : Int) = admittedSum (runWalk unverifiedScenario).admitted 0
      ∧ ((64 : Int) ≠ 0 → (64 : Int) ≤ 64))
    ∧ walkAllocate (runWalk unverifiedScenario) (FlatPiece.mk 0 2 capacityPiece 1)
        { maxUnverifiedBytes := 64, capKey := none, unverifiedBytes := 64, peers := [] }
      = runWalk unverifiedScenario
    ∧ (walkAllocate ⟨[], [⟨0, none, 0, []⟩], [], false⟩ (FlatPiece.mk 0 0 capacityPiece 1)
        ⟨0, none, 0, []⟩).admitted = [] ++ [(0, 0, 32)] := by
  have hget : (runWalk unverifiedScenario).torrents[0]?
      = some { maxUnverifiedBytes := 64, capKey := none, unverifiedBytes := 64, peers := [] } := rfl
  have h1 := walk_unverified_ceiling.1 unverifiedScenario
    (by
      intro t ht hne
      simp only [unverifiedScenario, List.mem_singleton] at ht
      subst ht
      decide) 0 _ hget
  have h2 := (walk_unverified_ceiling.2 (runWalk unverifiedScenario)
    (FlatPiece.mk 0 2 capacityPiece 1)
    { maxUnverifiedBytes := 64, capKey := none, unverifiedBytes := 64, peers := [] }
    hget).1 rfl (by decide) (by decide) (by decide)
  have h3 := (walk_unverified_ceiling.2 ⟨[], [⟨0, none, 0, []⟩], [], false⟩
    (FlatPiece.mk 0 0 capacityPiece 1) ⟨0, none, 0, []⟩ rfl).2 rfl rfl (by decide)
  exact ⟨⟨hget, h1.1, h1.2⟩, h2, h3⟩

end SchedulerTheorems

section DialTheorems

/-- C6 counterexample: at nominal timeout 1000, half-open limit 2, one
pending peer and a zero floor, the code divides by the floor quotient
(1+2)/2 = 1 and yields 1000, while the claimed ceiling divisor
ceil((1+2)/2) = 2 would yield 500. -/
theorem reducedDialTimeout_not_ceiling :
    reducedDialTimeout 1000 2 1 0 = 1000 ∧
    specReducedDialTimeout 1000 2 1 0 = 500 ∧
    reducedDialTimeout 1000 2 1 0 ≠ specReducedDialTimeout 1000 2 1 0 := by
  exact ⟨rfl, rfl, by decide⟩

/-- C6 amended: for a positive half-open limit and a non-negative
pending-peer count, the reduced dial timeout equals the nominal timeout
divided by the floor of (pending + halfOpenLimit) / halfOpenLimit —
equivalently floor(pending/halfOpenLimit) + 1 — raised to minDialTimeout
when it falls below it. -/
theorem reducedDialTimeout_floor_quotient (mx h p minD : Int)
    (hh : 0 < h) (hp : 0 ≤ p) :
    reducedDialTimeout mx h p minD = max (mx.tdiv (p.tdiv h + 1)) minD := by
  unfold reducedDialTimeout
  have hq : (p + h).tdiv h = p.tdiv h + 1 := by
    rw [Int.tdiv_eq_ediv (by omega) (by omega), Int.tdiv_eq_ediv hp (by omega)]
    simpa using Int.add_mul_ediv_right p 1 (by omega : h ≠ 0)
  rw [hq]
  by_cases hlt : mx.tdiv (p.tdiv h + 1) < minD
  · rw [if_pos hlt, max_eq_right (le_of_lt hlt)]
  · rw [if_neg hlt, max_eq_left (not_lt.mp hlt)]

/-- Witness for the amended dial-timeout rule at the counterexample
input: 1000 / (floor(1/2) + 1) = 1000, not floored by the minimum 0. -/
theorem reducedDialTimeout_floor_quotient_witness :
    reducedDialTimeout 1000 2 1 0 = max ((1000 : Int).tdiv ((1 : Int).tdiv 2 + 1)) 0 :=
  reducedDialTimeout_floor_quotient 1000 2 1 0 (by decide) (by decide)

end DialTheorems

section RegistryTheorems

open Registry

/-- C10: AddTorrentSpec returns the existing torrent handle with
new=false and no error whenever the infohash is already registered —
whatever the banned set holds, and without touching the registry — and
raises the banned-torrent error only when the infohash is not yet
registered. -/
theorem AddTorrentSpec_existing_before_banned :
    (∀ (cl : ClientState) (banned' : List Nat) (setupFails : Bool) (fresh ih t : Nat),
        lookupReg cl.torrents ih = some t →
        AddTorrentSpec setupFails fresh { cl with bannedTorrents := banned' } ih
          = ⟨some t, false, none, { cl with bannedTorrents := banned' }⟩)
    ∧ (∀ (cl : ClientState) (setupFails : Bool) (fresh ih : Nat),
        lookupReg cl.torrents ih = none →
        cl.bannedTorrents.contains ih = true →
        AddTorrentSpec setupFails fresh cl ih
          = ⟨none, true, some .bannedTorrent, cl⟩) := by
  constructor
  · intro cl banned' setupFails fresh ih t hlook
    simp only [AddTorrentSpec, hlook]
  · intro cl setupFails fresh ih hlook hban
    simp only [AddTorrentSpec, hlook, hban, if_true]

/-- Witness: with infohash 5 registered to handle 77, adding it again —
even with 5 banned — returns the existing handle, no error, unchanged
state; and with an empty registry a banned infohash errors out. -/
theorem AddTorrentSpec_existing_before_banned_witness :
    AddTorrentSpec true 9 ⟨[(5, 77)], [5]⟩ 5 = ⟨some 77, false, none, ⟨[(5, 77)], [5]⟩⟩
    ∧ AddTorrentSpec false 9 ⟨[], [5]⟩ 5
        = ⟨none, true, some .bannedTorrent, ⟨[], [5]⟩⟩ := by
  refine ⟨?_, ?_⟩
  · exact AddTorrentSpec_existing_before_banned.1 ⟨[(5, 77)], []⟩ [5] true 9 5 77 rfl
  · exact AddTorrentSpec_existing_before_banned.2 ⟨[], [5]⟩ false 9 5 rfl rfl

end RegistryTheorems

section MetadataTheorems

open Metadata

/-- C7 counterexample: a digest function under which the reassembled
metadata matches the infohash, while the bytes do not decode as an info
dictionary: the hash comparison succeeds yet acquisition is not
accepted, so acceptance is not equivalent to the hash check alone. -/
theorem completedMetadata_match_yet_rejected :
    (fun _ : List Nat => 0) undecodableMeta.metaData = undecodableMeta.infoHash
    ∧ (completedMetadata (fun _ => 0) (fun _ => none) (fun _ => true)
        undecodableMeta).info = none := by
  exact ⟨rfl, rfl⟩

/-- C7 amended: starting without installed info, acquisition is accepted
iff the digest of the metadata equals the infohash, the metadata decodes
as an info dictionary, and installing it succeeds; on a digest mismatch
the metadata buffer is invalidated and the torrent is left without
info. -/
theorem completedMetadata_accepts_iff (sha1 : List Nat → Nat)
    (decode : List Nat → Option Nat) (setMetaDataOk : Nat → Bool)
    (t : TorrentMeta) (h : t.info = none) :
    ((completedMetadata sha1 decode setMetaDataOk t).info.isSome ↔
      sha1 t.metaData = t.infoHash ∧
        ∃ i, decode t.metaData = some i ∧ setMetaDataOk i = true)
    ∧ (sha1 t.metaData ≠ t.infoHash →
        completedMetadata sha1 decode setMetaDataOk t = invalidateMetadata t
        ∧ (completedMetadata sha1 decode setMetaDataOk t).info = none
        ∧ (completedMetadata sha1 decode setMetaDataOk t).metaData = []) := by
  by_cases hh : sha1 t.metaData = t.infoHash
  · cases hd : decode t.metaData with
    | none => simp [completedMetadata, invalidateMetadata, hh, hd, h]
    | some i =>
      by_cases hs : setMetaDataOk i
      · simp [completedMetadata, invalidateMetadata, hh, hd, hs, h]
      · simp [completedMetadata, invalidateMetadata, hh, hd, hs, h]
  · simp [completedMetadata, invalidateMetadata, hh, h]

/-- Witness for the amended acceptance rule: a digest of 1 matching the
infohash 1, decodable metadata installing handle 5, on a torrent without
info: acquisition is accepted. -/
theorem completedMetadata_accepts_iff_witness :
    ((completedMetadata (fun _ => 1) (fun _ => some 5) (fun _ => true)
        ⟨[9], 1, none⟩).info.isSome ↔
      (fun _ : List Nat => 1) [9] = 1 ∧
        ∃ i, (fun _ : List Nat => some 5) [9] = some i ∧ (fun _ : Nat => true) i = true)
    ∧ ((fun _ : List Nat => 1) [9] ≠ 1 →
        completedMetadata (fun _ => 1) (fun _ => some 5) (fun _ => true) ⟨[9], 1, none⟩
          = invalidateMetadata ⟨[9], 1, none⟩
        ∧ (completedMetadata (fun _ => 1) (fun _ => some 5) (fun _ => true)
            ⟨[9], 1, none⟩).info = none
        ∧ (completedMetadata (fun _ => 1) (fun _ => some 5) (fun _ => true)
            ⟨[9], 1, none⟩).metaData = []) :=
  completedMetadata_accepts_iff (fun _ => 1) (fun _ => some 5) (fun _ => true)
    ⟨[9], 1, none⟩ rfl

end MetadataTheorems

section PriorityTheorems

open Priorities

/-- Queueing a first hash does not change the piece count. -/
theorem queueFirstHash_length (t : PTorrent) (i : Nat) :
    (queueFirstHash t i).pieces.length = t.pieces.length := by
  cases hp : t.pieces[i]? with
  | none => simp only [queueFirstHash, hp]
  | some p =>
    by_cases hcond : (p.everHashed || p.hashing || p.queuedForHash || p.complete) = true
    · simp only [queueFirstHash, hp, hcond, if_true]
    · simp only [queueFirstHash, hp]
      rw [if_neg hcond]
      simp

/-- Queueing a first hash touches neither priorities nor completion. -/
theorem queueFirstHash_view (t : PTorrent) (i j : Nat) :
    ((queueFirstHash t i).pieces[j]?).map priorityView = (t.pieces[j]?).map priorityView := by
  cases hp : t.pieces[i]? with
  | none => simp only [queueFirstHash, hp]
  | some p =>
    by_cases hcond : (p.everHashed || p.hashing || p.queuedForHash || p.complete) = true
    · simp only [queueFirstHash, hp, hcond, if_true]
    · simp only [queueFirstHash, hp]
      rw [if_neg hcond]
      by_cases hj : j = i
      · subst hj
        have hlt : j < t.pieces.length := (List.getElem?_eq_some.mp hp).1
        simp only [List.getElem?_set_self hlt, hp]
        rfl
      · simp only [List.getElem?_set_ne (by omega : i ≠ j)]

/-- pieceChanged does not change the piece count. -/
theorem pieceChanged_length (t : PTorrent) (i : Nat) :
    (pieceChanged t i).pieces.length = t.pieces.length := by
  cases hp : t.pieces[i]? with
  | none => simp only [pieceChanged, hp]
  | some p =>
    by_cases hc : p.complete = true
    · simp only [pieceChanged, hp, hc, if_true]
      simp
    · simp only [pieceChanged, hp]
      rw [if_neg hc]

/-- pieceChanged leaves an incomplete piece's torrent untouched (in the
priority model). -/
theorem pieceChanged_of_not_complete (t : PTorrent) (i : Nat) (p : PPiece)
    (hp : t.pieces[i]? = some p) (hc : p.complete = false) :
    pieceChanged t i = t := by
  simp only [pieceChanged, hp, hc]
  simp

/-- prioritizePiece does not change the piece count. -/
theorem prioritizePiece_length (t : PTorrent) (i pr : Nat) :
    (prioritizePiece t i pr).pieces.length = t.pieces.length := by
  by_cases hcomp : t.havePiece i = true
  · simp only [prioritizePiece, hcomp, if_true]
  · simp only [prioritizePiece, hcomp, Bool.false_eq_true, if_false]
    cases hp1 : (queueFirstHash t i).pieces[i]? with
    | none =>
      rw [pieceChanged_length]
      exact queueFirstHash_length t i
    | some p1 =>
      rw [pieceChanged_length]
      simp only [List.length_set]
      exact queueFirstHash_length t i

/-- raisePiecePriority does not change the piece count. -/
theorem raisePiecePriority_length (t : PTorrent) (i pr : Nat) :
    (raisePiecePriority t i pr).pieces.length = t.pieces.length := by
  cases hp : t.pieces[i]? with
  | none => simp only [raisePiecePriority, hp]
  | some p =>
    by_cases hlt : p.priority < pr
    · simp only [raisePiecePriority, hp, hlt, if_true]
      exact prioritizePiece_length t i pr
    · simp only [raisePiecePriority, hp]
      rw [if_neg hlt]

/-- prioritizePiece on an incomplete piece sets exactly that piece's
priority and nothing else. -/
theorem prioritizePiece_view (t : PTorrent) (i pr : Nat) (p : PPiece)
    (hp : t.pieces[i]? = some p) (hc : p.complete = false) (j : Nat) :
    ((prioritizePiece t i pr).pieces[j]?).map priorityView
      = if j = i then some (pr, false) else (t.pieces[j]?).map priorityView := by
  have hhave : t.havePiece i = false := by
    simp only [PTorrent.havePiece, hp, hc]
  have hq := queueFirstHash_view t i i
  rw [hp] at hq
  cases hp1 : (queueFirstHash t i).pieces[i]? with
  | none => rw [hp1] at hq; cases hq
  | some p1 =>
    rw [hp1] at hq
    simp only [Option.map_some', priorityView] at hq
    have hpri : p1.priority = p.priority := by
      have := congrArg Prod.fst (Option.some.inj hq)
      simpa using this
    have hcomp : p1.complete = false := by
      have := congrArg Prod.snd (Option.some.inj hq)
      simpa [hc] using this
    have hlt1 : i < (queueFirstHash t i).pieces.length := (List.getElem?_eq_some.mp hp1).1
    have hset : ((queueFirstHash t i).pieces.set i { p1 with priority := pr })[i]?
        = some { p1 with priority := pr } := List.getElem?_set_self hlt1
    simp only [prioritizePiece, hhave, Bool.false_eq_true, if_false, hp1]
    rw [pieceChanged_of_not_complete _ i { p1 with priority := pr } hset hcomp]
    by_cases hj : j = i
    · subst hj
      rw [if_pos rfl, hset]
      simp [priorityView, hcomp]
    · rw [if_neg hj]
      rw [List.getElem?_set_ne (by omega : i ≠ j)]
      exact queueFirstHash_view t i j

/-- raisePiecePriority takes an incomplete target piece's priority to
the max of its old priority and the requested one, and leaves complete
pieces and other pieces alone. -/
theorem raisePiecePriority_view (t : PTorrent) (i pr j : Nat) (pri : Nat) (c : Bool)
    (h : (t.pieces[j]?).map priorityView = some (pri, c)) :
    ((raisePiecePriority t i pr).pieces[j]?).map priorityView
      = some (if j = i ∧ c = false then max pri pr else pri, c) := by
  cases hpj : t.pieces[j]? with
  | none => rw [hpj] at h; cases h
  | some pj =>
    rw [hpj] at h
    simp only [Option.map_some', priorityView] at h
    have hpri : pj.priority = pri := by
      have := congrArg Prod.fst (Option.some.inj h); simpa using this
    have hcb : pj.complete = c := by
      have := congrArg Prod.snd (Option.some.inj h); simpa using this
    by_cases hj : j = i
    · subst hj
      by_cases hltp : pj.priority < pr
      · simp only [raisePiecePriority, hpj, hltp, if_true]
        cases hcc : pj.complete with
        | true =>
          have hhave : t.havePiece j = true := by
            simp only [PTorrent.havePiece, hpj, hcc]
          simp only [prioritizePiece, hhave, if_true, hpj, Option.map_some', priorityView]
          rw [← hcb, hcc]
          simp [hpri]
        | false =>
          rw [prioritizePiece_view t j pr pj hpj hcc j, if_pos rfl]
          rw [← hcb, hcc]
          have hmax : max pri pr = pr := Nat.max_eq_right (by omega)
          simp [hmax]
      · simp only [raisePiecePriority, hpj]
        rw [if_neg hltp, hpj]
        simp only [Option.map_some', priorityView, hpri, hcb]
        by_cases hcf : c = false
        · have hmax : max pri pr = pri := Nat.max_eq_left (by omega)
          simp [hcf, hmax]
        · simp [hcf]
    · have hres : ((raisePiecePriority t i pr).pieces[j]?).map priorityView
          = (t.pieces[j]?).map priorityView := by
        cases hpi : t.pieces[i]? with
        | none => simp only [raisePiecePriority, hpi]
        | some qi =>
          by_cases hlt2 : qi.priority < pr
          · simp only [raisePiecePriority, hpi, hlt2, if_true]
            by_cases hcompi : qi.complete = false
            · rw [prioritizePiece_view t i pr qi hpi hcompi j, if_neg hj]
            · have hhave : t.havePiece i = true := by
                simp only [PTorrent.havePiece, hpi]
                simp only [Bool.not_eq_false] at hcompi
                exact hcompi
              simp only [prioritizePiece, hhave, if_true]
          · simp only [raisePiecePriority, hpi]
            rw [if_neg hlt2]
      rw [hres, hpj]
      simp only [Option.map_some', priorityView, hpri, hcb]
      simp [hj]

/-- The readahead loop raises the priorities of the k pieces after its
start index (clipped at the end of the torrent) to at least readahead,
for incomplete pieces. -/
theorem raiseReadahead_view (k : Nat) : ∀ (t : PTorrent) (index j pri : Nat) (c : Bool),
    (t.pieces[j]?).map priorityView = some (pri, c) →
    ((raiseReadahead t index k).pieces[j]?).map priorityView
      = some (if index + 1 ≤ j ∧ j ≤ index + k ∧ c = false
              then max pri piecePriorityReadahead else pri, c) := by
  induction k with
  | zero =>
    intro t index j pri c h
    simp only [raiseReadahead]
    rw [h, if_neg (by omega : ¬(index + 1 ≤ j ∧ j ≤ index + 0 ∧ c = false))]
  | succ k ih =>
    intro t index j pri c h
    have hj : j < t.pieces.length := by
      cases hpj : t.pieces[j]? with
      | none => rw [hpj] at h; cases h
      | some pj => exact (List.getElem?_eq_some.mp hpj).1
    simp only [raiseReadahead]
    by_cases hn : t.pieces.length ≤ index + 1
    · rw [if_pos hn, h, if_neg (by omega : ¬(index + 1 ≤ j ∧ j ≤ index + (k+1) ∧ c = false))]
    · rw [if_neg hn]
      have h1 := raisePiecePriority_view t (index+1) piecePriorityReadahead j pri c h
      have h2 := ih (raisePiecePriority t (index+1) piecePriorityReadahead) (index+1) j _ c h1
      rw [h2]
      clear h h1 h2
      cases c with
      | false =>
        simp only [Option.some.injEq, Prod.mk.injEq, and_true]
        split_ifs <;> omega
      | true =>
        simp only [show ((true : Bool) = false) = False from by simp, and_false, if_false]

/-- C8 amended: a read at offset off raises every not-yet-complete
piece's priority to the max of its old priority and the level the read
assigns (now for the piece containing the offset, next for the following
piece, readahead for the following readaheadPieces(5 MiB, pieceLen)
pieces, nothing beyond); complete pieces are untouched, so priorities
are never lowered; and on completion pieceChanged decays the priority to
none. -/
theorem readRaise_priority_gradient :
    (∀ (t : PTorrent) (off : Int), 0 < t.pieceLength → 0 ≤ off →
      ∀ (j pri : Nat) (c : Bool), (t.pieces[j]?).map priorityView = some (pri, c) →
      ((readRaisePiecePriorities t off).pieces[j]?).map priorityView
        = some ((if c = false then
            max pri
              (if j = (off.tdiv t.pieceLength).toNat then piecePriorityNow
               else if j = (off.tdiv t.pieceLength).toNat + 1 then piecePriorityNext
               else if (off.tdiv t.pieceLength).toNat + 2 ≤ j ∧
                   j ≤ (off.tdiv t.pieceLength).toNat + 1 +
                     (readaheadPieces (5 * 1024 * 1024) t.pieceLength).toNat then
                 piecePriorityReadahead
               else piecePriorityNone)
          else pri), c))
    ∧ (∀ (t : PTorrent) (i : Nat) (p : PPiece), t.pieces[i]? = some p → p.complete = true →
        ((pieceChanged t i).pieces[i]?).map priorityView = some (piecePriorityNone, true)) := by
  constructor
  · intro t off _ _ j pri c h
    have hj : j < t.pieces.length := by
      cases hpj : t.pieces[j]? with
      | none => rw [hpj] at h; cases h
      | some pj => exact (List.getElem?_eq_some.mp hpj).1
    simp only [readRaisePiecePriorities]
    by_cases hn : t.pieces.length ≤ (off.tdiv t.pieceLength).toNat + 1
    · rw [if_pos hn]
      have h1 := raisePiecePriority_view t ((off.tdiv t.pieceLength).toNat)
        piecePriorityNow j pri c h
      rw [h1]
      cases c with
      | false =>
        simp only [Option.some.injEq, Prod.mk.injEq, and_true, piecePriorityNone,
          piecePriorityNow, piecePriorityNext, piecePriorityReadahead]
        split_ifs <;> omega
      | true =>
        simp only [show ((true : Bool) = false) = False from by simp, and_false, if_false]
    · rw [if_neg hn]
      have h1 := raisePiecePriority_view t ((off.tdiv t.pieceLength).toNat)
        piecePriorityNow j pri c h
      have h2 := raisePiecePriority_view _ ((off.tdiv t.pieceLength).toNat + 1)
        piecePriorityNext j _ c h1
      have h3 := raiseReadahead_view ((readaheadPieces (5 * 1024 * 1024) t.pieceLength).toNat)
        _ ((off.tdiv t.pieceLength).toNat + 1) j _ c h2
      rw [h3]
      clear h h1 h2 h3
      cases c with
      | false =>
        simp only [Option.some.injEq, Prod.mk.injEq, and_true, piecePriorityNone,
          piecePriorityNow, piecePriorityNext, piecePriorityReadahead]
        split_ifs <;> omega
      | true =>
        simp only [show ((true : Bool) = false) = False from by simp, and_false, if_false]
  · intro t i p hp hc
    simp only [pieceChanged, hp, hc, if_true]
    have hlt : i < t.pieces.length := (List.getElem?_eq_some.mp hp).1
    rw [List.getElem?_set_self hlt]
    simp [priorityView, hc]

/-- Witness for the priority gradient: a single-piece torrent read at
offset 0 ends with the piece at priority now, and a complete piece's
priority decays to none through pieceChanged. -/
theorem readRaise_priority_gradient_witness :
    ((readRaisePiecePriorities ⟨1024, [⟨0, false, false, false, false⟩]⟩ 0).pieces[0]?).map
        priorityView = some (piecePriorityNow, false)
    ∧ ((pieceChanged ⟨1024, [⟨piecePriorityNext, true, true, false, false⟩]⟩ 0).pieces[0]?).map
        priorityView = some (piecePriorityNone, true) := by
  constructor
  · have h := readRaise_priority_gradient.1 ⟨1024, [⟨0, false, false, false, false⟩]⟩ 0
      (by decide) (by decide) 0 0 false rfl
    rw [h]
    decide
  · exact readRaise_priority_gradient.2 ⟨1024, [⟨piecePriorityNext, true, true, false, false⟩]⟩
      0 ⟨piecePriorityNext, true, true, false, false⟩ rfl rfl

/-- C8 counterexample: reading at offset 0 of a torrent whose piece 0 is
already complete leaves that piece's priority at none, not now, so the
claim's unconditional "the piece containing o is set to priority now"
fails on complete pieces. -/
theorem readRaise_complete_piece_keeps_priority :
    ((readRaisePiecePriorities ⟨32, [⟨piecePriorityNone, true, true, false, false⟩]⟩ 0).pieces[0]?).map
        (fun p => p.priority) = some piecePriorityNone
    ∧ piecePriorityNone ≠ piecePriorityNow := by
  exact ⟨rfl, by decide⟩

end PriorityTheorems

section CapLemmas

namespace RequestStrategy

/-- Inserting for the insertion sort permutes. -/
theorem insertSorted_perm (lt : α → α → Bool) (a : α) (l : List α) :
    (insertSorted lt a l).Perm (a :: l) := by
  induction l with
  | nil => exact List.Perm.refl _
  | cons b rest ih =>
    unfold insertSorted
    by_cases hab : lt a b = true
    · rw [if_pos hab]
    · rw [if_neg hab]
      exact (ih.cons b).trans (List.Perm.swap a b rest)

/-- The sort model permutes its input. -/
theorem sortSlice_perm (lt : α → α → Bool) (l : List α) :
    (sortSlice lt l).Perm l := by
  induction l with
  | nil => exact List.Perm.refl _
  | cons a rest ih =>
    exact (insertSorted_perm lt a (sortSlice lt rest)).trans (ih.cons a)

/-- Members of the sorted list are members of the input. -/
theorem mem_sortSlice {lt : α → α → Bool} {l : List α} {x : α}
    (h : x ∈ sortSlice lt l) : x ∈ l :=
  (sortSlice_perm lt l).mem_iff.mp h

/-- A member of a list after a set is the new element or an old member. -/
theorem mem_of_mem_set {l : List α} {i : Nat} {b x : α}
    (h : x ∈ l.set i b) : x = b ∨ x ∈ l := by
  induction l generalizing i with
  | nil => simp at h
  | cons a rest ih =>
    cases i with
    | zero =>
      rw [List.set_cons_zero] at h
      rcases List.mem_cons.mp h with h | h
      · exact Or.inl h
      · exact Or.inr (List.mem_cons_of_mem a h)
    | succ i =>
      rw [List.set_cons_succ] at h
      rcases List.mem_cons.mp h with h | h
      · exact Or.inr (h ▸ List.mem_cons_self a rest)
      · rcases ih h with h' | h'
        · exact Or.inl h'
        · exact Or.inr (List.mem_cons_of_mem a h')

/-- Adding a request that fits keeps the peer at or below its request
budget. -/
theorem addNextRequest_bound (rp : RequestsPeer) (r : Request)
    (hfit : rp.canFitRequest = true) :
    ((rp.addNextRequest r).1).nextState.requests.length
      ≤ ((rp.addNextRequest r).1).peer.maxRequests := by
  unfold RequestsPeer.addNextRequest
  unfold RequestsPeer.canFitRequest at hfit
  simp only [decide_eq_true_eq] at hfit
  by_cases hc : rp.nextState.requests.contains r = true
  · rw [if_pos hc]
    dsimp only
    omega
  · rw [if_neg hc]
    dsimp only
    simp only [List.length_append, List.length_cons, List.length_nil]
    omega

/-- The per-piece wrapper of addNextRequest keeps the budget. -/
theorem PFP_addNextRequest_bound (e : PFP) (r : Request)
    (hfit : e.rp.canFitRequest = true) :
    ((e.addNextRequest r).1).rp.nextState.requests.length
      ≤ ((e.addNextRequest r).1).rp.peer.maxRequests := by
  unfold PFP.addNextRequest
  dsimp only
  exact addNextRequest_bound e.rp r hfit

/-- The candidate scan only ever adds requests guarded by canFitRequest,
so every peer stays at or below its budget. -/
theorem scanPeers_bound (pieceIdx : Nat) (req : Request) (l : List PFP)
    (H : ∀ e ∈ l, e.rp.nextState.requests.length ≤ e.rp.peer.maxRequests) :
    ∀ e ∈ (scanPeers pieceIdx req l).1,
      e.rp.nextState.requests.length ≤ e.rp.peer.maxRequests := by
  induction l with
  | nil =>
    intro e he
    simp [scanPeers] at he
  | cons a rest ih =>
    have Hrest : ∀ e ∈ rest, e.rp.nextState.requests.length ≤ e.rp.peer.maxRequests :=
      fun e he => H e (List.mem_cons_of_mem a he)
    have Ha := H a (List.mem_cons_self a rest)
    intro e he
    unfold scanPeers at he
    by_cases hfit : a.rp.canFitRequest = true
    · rw [if_neg (by simp [hfit])] at he
      by_cases hhas : a.rp.peer.hasPiece pieceIdx = true
      · rw [if_neg (by simp [hhas])] at he
        by_cases hfast : a.rp.peer.pieceAllowedFastOrDefault pieceIdx = true
        · rw [if_pos hfast] at he
          dsimp only at he
          rcases List.mem_cons.mp he with h | h
          · exact h ▸ PFP_addNextRequest_bound a req hfit
          · exact Hrest e h
        · rw [if_neg hfast] at he
          by_cases hchk : a.rp.peer.choking = true
          · rw [if_pos hchk] at he
            dsimp only at he
            rcases List.mem_cons.mp he with h | h
            · subst h
              exact Ha
            · exact ih Hrest e h
          · rw [if_neg hchk] at he
            dsimp only at he
            rcases List.mem_cons.mp he with h | h
            · subst h
              exact PFP_addNextRequest_bound _ req hfit
            · exact Hrest e h
      · rw [if_pos (by simp [hhas])] at he
        dsimp only at he
        rcases List.mem_cons.mp he with h | h
        · subst h
          exact Ha
        · exact ih Hrest e h
    · rw [if_pos (by simp [hfit])] at he
      dsimp only at he
      rcases List.mem_cons.mp he with h | h
      · subst h
        exact Ha
      · exact ih Hrest e h

/-- The preallocation peer loop keeps every peer at or below its
budget. -/
theorem phaseAPeers_bound (pieceIdx : Nat) (req : Request) (l : List PFP)
    (pre : Option Nat) (pan : Bool)
    (H : ∀ e ∈ l, e.rp.nextState.requests.length ≤ e.rp.peer.maxRequests) :
    ∀ e ∈ (phaseAPeers pieceIdx req l pre pan).1,
      e.rp.nextState.requests.length ≤ e.rp.peer.maxRequests := by
  induction l generalizing pre pan with
  | nil =>
    intro e he
    simp [phaseAPeers] at he
  | cons a rest ih =>
    have Hrest : ∀ e ∈ rest, e.rp.nextState.requests.length ≤ e.rp.peer.maxRequests :=
      fun e he => H e (List.mem_cons_of_mem a he)
    have Ha := H a (List.mem_cons_self a rest)
    intro e he
    unfold phaseAPeers at he
    by_cases hcond : ((match a.rp.peer.hasExistingRequest with
        | none => false
        | some h => h req) && a.rp.canFitRequest && a.rp.peer.canRequestPiece pieceIdx) = true
    · rw [if_pos hcond] at he
      dsimp only at he
      rcases List.mem_cons.mp he with h | h
      · subst h
        have hfit : a.rp.canFitRequest = true := by
          have := hcond
          simp only [Bool.and_eq_true] at this
          exact this.1.2
        exact PFP_addNextRequest_bound a req hfit
      · exact ih _ _ Hrest e h
    · rw [if_neg hcond] at he
      dsimp only at he
      rcases List.mem_cons.mp he with h | h
      · subst h
        exact Ha
      · exact ih _ _ Hrest e h

/-- The preallocation phase keeps every peer at or below its budget. -/
theorem phaseA_fold_bound (pieceIdx : Nat) (chunks : List ChunkSpec)
    (st : List PFP × List (ChunkSpec × Nat) × Bool)
    (H : ∀ e ∈ st.1, e.rp.nextState.requests.length ≤ e.rp.peer.maxRequests) :
    ∀ e ∈ (chunks.foldl (phaseA pieceIdx) st).1,
      e.rp.nextState.requests.length ≤ e.rp.peer.maxRequests := by
  induction chunks generalizing st with
  | nil => exact H
  | cons spec rest ih =>
    refine ih (phaseA pieceIdx st spec) ?_
    obtain ⟨pfp, prealloc, pan⟩ := st
    intro e he
    unfold phaseA at he
    dsimp only at he
    rcases hres : phaseAPeers pieceIdx ⟨pieceIdx, spec⟩ pfp none pan with ⟨pfp', found, pan'⟩
    rw [hres] at he
    have hb := phaseAPeers_bound pieceIdx ⟨pieceIdx, spec⟩ pfp none pan H
    rw [hres] at hb
    cases found with
    | some oi => exact hb e he
    | none => exact hb e he

/-- The fill phase keeps every peer at or below its budget. -/
theorem phaseB_fold_bound (pieceIdx : Nat) (prealloc : List (ChunkSpec × Nat))
    (chunks : List ChunkSpec) (st : List PFP × Int × Bool)
    (H : ∀ e ∈ st.1, e.rp.nextState.requests.length ≤ e.rp.peer.maxRequests) :
    ∀ e ∈ (chunks.foldl (phaseB pieceIdx prealloc) st).1,
      e.rp.nextState.requests.length ≤ e.rp.peer.maxRequests := by
  induction chunks generalizing st with
  | nil => exact H
  | cons spec rest ih =>
    refine ih (phaseB pieceIdx prealloc st spec) ?_
    obtain ⟨pfp, remaining, pan⟩ := st
    intro e he
    unfold phaseB at he
    dsimp only at he
    by_cases hpre : prealloc.any (fun e => e.1 = spec) = true
    · rw [if_pos hpre] at he
      exact H e he
    · rw [if_neg hpre] at he
      dsimp only at he
      rcases hres : scanPeers pieceIdx ⟨pieceIdx, spec⟩ (sortSlice (sortPeersLess none) pfp)
        with ⟨pfp2, taken, dup⟩
      rw [hres] at he
      have hsorted : ∀ x ∈ sortSlice (sortPeersLess none) pfp,
          x.rp.nextState.requests.length ≤ x.rp.peer.maxRequests :=
        fun x hx => H x (mem_sortSlice hx)
      have hb := scanPeers_bound pieceIdx ⟨pieceIdx, spec⟩ _ hsorted
      rw [hres] at hb
      exact hb e he

/-- A pointwise update that keeps the budget keeps it across the
list. -/
theorem updatePFP_bound (l : List PFP) (idx : Nat) (f : PFP → PFP)
    (hf : ∀ e, e.rp.nextState.requests.length ≤ e.rp.peer.maxRequests →
      (f e).rp.nextState.requests.length ≤ (f e).rp.peer.maxRequests)
    (H : ∀ e ∈ l, e.rp.nextState.requests.length ≤ e.rp.peer.maxRequests) :
    ∀ e ∈ updatePFP l idx f,
      e.rp.nextState.requests.length ≤ e.rp.peer.maxRequests := by
  intro e he
  unfold updatePFP at he
  rcases List.mem_map.mp he with ⟨x, hx, hxe⟩
  by_cases hid : x.origIdx = idx
  · rw [if_pos hid] at hxe
    exact hxe ▸ hf x (H x hx)
  · rw [if_neg hid] at hxe
    exact hxe ▸ H x hx

/-- The steal phase keeps every peer at or below its budget (the steal
removes a request before any re-add). -/
theorem phaseC_fold_bound (pieceIdx : Nat) (entries : List (ChunkSpec × Nat))
    (st : List PFP × Int × Bool)
    (H : ∀ e ∈ st.1, e.rp.nextState.requests.length ≤ e.rp.peer.maxRequests) :
    ∀ e ∈ (entries.foldl (phaseC pieceIdx) st).1,
      e.rp.nextState.requests.length ≤ e.rp.peer.maxRequests := by
  induction entries generalizing st with
  | nil => exact H
  | cons entry rest ih =>
    refine ih (phaseC pieceIdx st entry) ?_
    obtain ⟨pfp, remaining, pan⟩ := st
    intro e he
    unfold phaseC at he
    dsimp only at he
    rcases hres : scanPeers pieceIdx ⟨pieceIdx, entry.1⟩
        (updatePFP (sortSlice (sortPeersLess (some ⟨pieceIdx, entry.1⟩))
          (updatePFP pfp entry.2 (fun e => { e with requestsInPiece := e.requestsInPiece - 1 })))
          entry.2 (fun e => { e with rp := { e.rp with nextState :=
            { e.rp.nextState with requests := e.rp.nextState.requests.erase ⟨pieceIdx, entry.1⟩ } } }))
      with ⟨pfp4, taken, dup⟩
    rw [hres] at he
    have h1 := updatePFP_bound pfp entry.2
      (fun e => { e with requestsInPiece := e.requestsInPiece - 1 })
      (fun e hb => hb) H
    have h2 : ∀ x ∈ sortSlice (sortPeersLess (some ⟨pieceIdx, entry.1⟩))
        (updatePFP pfp entry.2 (fun e => { e with requestsInPiece := e.requestsInPiece - 1 })),
        x.rp.nextState.requests.length ≤ x.rp.peer.maxRequests :=
      fun x hx => h1 x (mem_sortSlice hx)
    have h3 := updatePFP_bound _ entry.2
      (fun e => { e with rp := { e.rp with nextState :=
        { e.rp.nextState with requests := e.rp.nextState.requests.erase ⟨pieceIdx, entry.1⟩ } } })
      (fun e hb => le_trans (List.length_erase_le _ _) hb) h2
    have hb := scanPeers_bound pieceIdx ⟨pieceIdx, entry.1⟩ _ h3
    rw [hres] at hb
    exact hb e he

/-- The payload of an enumFrom member is a member. -/
theorem mem_enumFrom_snd {l : List α} : ∀ {n : Nat} {x : Nat × α},
    x ∈ l.enumFrom n → x.2 ∈ l := by
  induction l with
  | nil => intro n x h; simp [List.enumFrom] at h
  | cons a rest ih =>
    intro n x h
    rcases List.mem_cons.mp h with h | h
    · subst h
      exact List.mem_cons_self a rest
    · exact List.mem_cons_of_mem a (ih h)

/-- The payload of an enum member is a member. -/
theorem mem_enum_snd {l : List α} {x : Nat × α} (h : x ∈ l.enum) : x.2 ∈ l :=
  mem_enumFrom_snd h

/-- Restoring the torrent's peer order preserves the budget bound. -/
theorem restorePeers_bound (n : Nat) (l : List PFP)
    (H : ∀ e ∈ l, e.rp.nextState.requests.length ≤ e.rp.peer.maxRequests) :
    ∀ rp ∈ restorePeers n l, rp.nextState.requests.length ≤ rp.peer.maxRequests := by
  intro rp hrp
  unfold restorePeers at hrp
  rcases List.mem_filterMap.mp hrp with ⟨i, _, hfi⟩
  rcases Option.map_eq_some'.mp hfi with ⟨e, hfind, hrpe⟩
  exact hrpe ▸ H e (List.mem_of_find?_eq_some hfind)

/-- allocatePendingChunks keeps every peer at or below its request
budget. -/
theorem allocatePendingChunks_bound (fp : FlatPiece) (peers : List RequestsPeer)
    (H : ∀ rp ∈ peers, rp.nextState.requests.length ≤ rp.peer.maxRequests) :
    ∀ rp ∈ (allocatePendingChunks fp peers).1,
      rp.nextState.requests.length ≤ rp.peer.maxRequests := by
  intro rp hrp
  unfold allocatePendingChunks at hrp
  dsimp only at hrp
  have H0 : ∀ e ∈ peers.enum.map (fun e => PFP.mk e.1 0 e.2),
      e.rp.nextState.requests.length ≤ e.rp.peer.maxRequests := by
    intro e he
    rcases List.mem_map.mp he with ⟨x, hx, hxe⟩
    exact hxe ▸ H x.2 (mem_enum_snd hx)
  rcases h1 : fp.piece.iterPendingChunks.foldl (phaseA fp.index)
      (peers.enum.map (fun e => PFP.mk e.1 0 e.2), [], false) with ⟨pfp1, prealloc, pan1⟩
  rw [h1] at hrp
  have hb1 := phaseA_fold_bound fp.index fp.piece.iterPendingChunks
    (peers.enum.map (fun e => PFP.mk e.1 0 e.2), [], false) H0
  rw [h1] at hb1
  rcases h2 : fp.piece.iterPendingChunks.foldl (phaseB fp.index prealloc)
      (pfp1, (fp.piece.numPendingChunks : Int), pan1) with ⟨pfp2, rem2, pan2⟩
  rw [h2] at hrp
  have hb2 := phaseB_fold_bound fp.index prealloc fp.piece.iterPendingChunks
    (pfp1, (fp.piece.numPendingChunks : Int), pan1) hb1
  rw [h2] at hb2
  rcases h3 : prealloc.foldl (phaseC fp.index) (pfp2, rem2, pan2) with ⟨pfp3, rem3, pan3⟩
  rw [h3] at hrp
  have hb3 := phaseC_fold_bound fp.index prealloc (pfp2, rem2, pan2) hb2
  rw [h3] at hb3
  dsimp only at hrp
  refine restorePeers_bound peers.length _ ?_ rp hrp
  intro e he
  rcases List.mem_map.mp he with ⟨x, hx, hxe⟩
  by_cases hcr : x.rp.peer.canRequestPiece fp.index = true
  · rw [if_pos hcr] at hxe
    exact hxe ▸ hb3 x hx
  · rw [if_neg hcr] at hxe
    exact hxe ▸ hb3 x hx

/-- The piece gates preserve the per-peer request budget. -/
theorem walkAllocate_bound (st : WalkState) (fp : FlatPiece) (t : OrderTorrent)
    (hto : st.torrents[fp.ti]? = some t)
    (H : ∀ ot ∈ st.torrents, ∀ rp ∈ ot.peers,
      rp.nextState.requests.length ≤ rp.peer.maxRequests) :
    ∀ ot ∈ (walkAllocate st fp t).torrents, ∀ rp ∈ ot.peers,
      rp.nextState.requests.length ≤ rp.peer.maxRequests := by
  intro ot hot rp hrp
  unfold walkAllocate at hot
  by_cases h1 : fp.piece.request = false ∨ fp.piece.numPendingChunks = 0
  · rw [if_pos h1] at hot
    exact H ot hot rp hrp
  · rw [if_neg h1] at hot
    by_cases h2 : t.maxUnverifiedBytes ≠ 0 ∧
        t.unverifiedBytes + fp.piece.length > t.maxUnverifiedBytes
    · rw [if_pos h2] at hot
      exact H ot hot rp hrp
    · rw [if_neg h2] at hot
      dsimp only at hot
      rcases mem_of_mem_set hot with h | h
      · subst h
        dsimp only at hrp
        have hb := allocatePendingChunks_bound fp t.peers
          (H t (List.getElem?_mem hto))
        exact hb rp hrp
      · exact H ot h rp hrp

/-- A walk step preserves the per-peer request budget. -/
theorem walkStep_bound (st : WalkState) (fp : FlatPiece)
    (H : ∀ ot ∈ st.torrents, ∀ rp ∈ ot.peers,
      rp.nextState.requests.length ≤ rp.peer.maxRequests) :
    ∀ ot ∈ (walkStep st fp).torrents, ∀ rp ∈ ot.peers,
      rp.nextState.requests.length ≤ rp.peer.maxRequests := by
  cases hto : st.torrents[fp.ti]? with
  | none =>
    have heq : walkStep st fp = st := by simp only [walkStep, hto]
    rw [heq]; exact H
  | some t =>
    cases hk : t.capKey with
    | none =>
      have heq : walkStep st fp = walkAllocate st fp t := by simp only [walkStep, hto, hk]
      rw [heq]
      exact walkAllocate_bound st fp t hto H
    | some k =>
      cases hl : lookupStorage st.storage k with
      | none =>
        have heq : walkStep st fp = walkAllocate st fp t := by
          simp only [walkStep, hto, hk, hl]
        rw [heq]
        exact walkAllocate_bound st fp t hto H
      | some left =>
        by_cases hlt : left < fp.piece.length
        · have heq : walkStep st fp = st := by
            simp only [walkStep, hto, hk, hl]
            rw [if_pos hlt]
          rw [heq]; exact H
        · have heq : walkStep st fp =
              walkAllocate
                { st with storage := setStorage st.storage k (left - fp.piece.length) } fp t := by
            simp only [walkStep, hto, hk, hl]
            rw [if_neg hlt]
          rw [heq]
          exact walkAllocate_bound _ fp t hto H

/-- Any walk preserves the per-peer request budget. -/
theorem foldl_walkStep_bound (fps : List FlatPiece) (st : WalkState)
    (H : ∀ ot ∈ st.torrents, ∀ rp ∈ ot.peers,
      rp.nextState.requests.length ≤ rp.peer.maxRequests) :
    ∀ ot ∈ (fps.foldl walkStep st).torrents, ∀ rp ∈ ot.peers,
      rp.nextState.requests.length ≤ rp.peer.maxRequests := by
  induction fps generalizing st with
  | nil => exact H
  | cons fp rest ih => exact ih (walkStep st fp) (walkStep_bound st fp H)

/-- After the whole sorted walk every peer is at or below its request
budget. -/
theorem runWalk_bound (ts : List Torrent) :
    ∀ ot ∈ (runWalk ts).torrents, ∀ rp ∈ ot.peers,
      rp.nextState.requests.length ≤ rp.peer.maxRequests := by
  have Hinit : ∀ ot ∈ (initState ts).torrents, ∀ rp ∈ ot.peers,
      rp.nextState.requests.length ≤ rp.peer.maxRequests := by
    intro ot hot rp hrp
    simp only [initState] at hot
    rcases List.mem_map.mp hot with ⟨t, _, hte⟩
    subst hte
    simp only [initTorrent] at hrp
    rcases List.mem_map.mp hrp with ⟨p, _, hpe⟩
    subst hpe
    simp [initRequestsPeer]
  exact foldl_walkStep_bound _ _ Hinit

/-- A member of the result map after a write is the written pair or an
old member. -/
theorem mem_setRetAssoc {l : List (Nat × PeerNextRequestState)} {k : Nat}
    {v : PeerNextRequestState} {x : Nat × PeerNextRequestState}
    (h : x ∈ setRetAssoc l k v) : x = (k, v) ∨ x ∈ l := by
  unfold setRetAssoc at h
  by_cases hc : l.any (fun e => e.1 = k) = true
  · rw [if_pos hc] at h
    rcases List.mem_map.mp h with ⟨e, he, hxe⟩
    by_cases he1 : e.1 = k
    · rw [if_pos he1] at hxe
      exact Or.inl hxe.symm
    · rw [if_neg he1] at hxe
      exact Or.inr (hxe ▸ he)
  · rw [if_neg hc] at h
    rcases List.mem_append.mp h with h | h
    · exact Or.inr h
    · rcases List.mem_cons.mp h with h | h
      · exact Or.inl h
      · simp at h

/-- Entries produced by the per-torrent result fold come from its
peers. -/
theorem gather_inner_mem (ps : List RequestsPeer) :
    ∀ (acc : List (Nat × PeerNextRequestState) × Bool)
      (x : Nat × PeerNextRequestState),
      x ∈ (ps.foldl
        (fun acc rp =>
          (setRetAssoc acc.1 rp.peer.id rp.nextState,
           acc.2 || (rp.requestablePiecesRemaining != 0))) acc).1 →
      x ∈ acc.1 ∨ ∃ rp ∈ ps, x = (rp.peer.id, rp.nextState) := by
  induction ps with
  | nil =>
    intro acc x h
    exact Or.inl h
  | cons p rest ih =>
    intro acc x h
    rcases ih _ x h with h' | ⟨rp, hrp, hx⟩
    · rcases mem_setRetAssoc h' with h'' | h''
      · exact Or.inr ⟨p, List.mem_cons_self p rest, h''⟩
      · exact Or.inl h''
    · exact Or.inr ⟨rp, List.mem_cons_of_mem p hrp, hx⟩

/-- Every entry of the emitted result map is some walked peer's id and
next state. -/
theorem gather_mem (st : WalkState) (x : Nat × PeerNextRequestState)
    (h : x ∈ (gather st).1) :
    ∃ ot ∈ st.torrents, ∃ rp ∈ ot.peers, x = (rp.peer.id, rp.nextState) := by
  unfold gather at h
  suffices hgen : ∀ (tos : List OrderTorrent) (acc : List (Nat × PeerNextRequestState) × Bool),
      x ∈ (tos.foldl
        (fun acc t =>
          t.peers.foldl
            (fun acc rp =>
              (setRetAssoc acc.1 rp.peer.id rp.nextState,
               acc.2 || (rp.requestablePiecesRemaining != 0))) acc) acc).1 →
      x ∈ acc.1 ∨ ∃ ot ∈ tos, ∃ rp ∈ ot.peers, x = (rp.peer.id, rp.nextState) by
    rcases hgen st.torrents ([], st.panicked) h with h' | h'
    · simp at h'
    · exact h'
  intro tos
  induction tos with
  | nil => intro acc h'; exact Or.inl h'
  | cons t rest ih =>
    intro acc h'
    rcases ih _ h' with h'' | ⟨ot, hot, rp, hrp, hx⟩
    · rcases gather_inner_mem t.peers acc x h'' with h3 | ⟨rp, hrp, hx⟩
      · exact Or.inl h3
      · exact Or.inr ⟨t, List.mem_cons_self t rest, rp, hrp, hx⟩
    · exact Or.inr ⟨ot, List.mem_cons_of_mem t hot, rp, hrp, hx⟩

end RequestStrategy

namespace ClientSched

/-- The addRequest closure never grows the outstanding set beyond
min(peerMaxRequests, 32). -/
theorem addRequest_bound (c : Connection) (r : RequestStrategy.Request)
    (h : c.requests.length ≤ min c.peerMaxRequests 32) :
    ((addRequest c r).1).requests.length ≤ min ((addRequest c r).1).peerMaxRequests 32 := by
  unfold addRequest Connection.request
  by_cases h32 : 32 ≤ c.requests.length
  · rw [if_pos h32]
    exact h
  · rw [if_neg h32]
    by_cases hpm : c.peerMaxRequests ≤ c.requests.length
    · rw [if_pos hpm]
      exact h
    · rw [if_neg hpm]
      by_cases hct : c.requests.contains r = true
      · rw [if_pos hct]
        exact h
      · rw [if_neg hct]
        simp only [List.length_append, List.length_cons, List.length_nil]
        omega

/-- The request loop of fillRequests preserves the
min(peerMaxRequests, 32) cap. -/
theorem fillLoop_bound (cands : List RequestStrategy.Request) :
    ∀ c : Connection, c.requests.length ≤ min c.peerMaxRequests 32 →
      (fillLoop c cands).requests.length ≤ min (fillLoop c cands).peerMaxRequests 32 := by
  induction cands with
  | nil => intro c h; exact h
  | cons r rest ih =>
    intro c h
    unfold fillLoop
    rcases hres : addRequest c r with ⟨c', again⟩
    have hb := addRequest_bound c r h
    rw [hres] at hb
    dsimp only
    cases again with
    | true =>
      rw [if_pos rfl]
      exact ih c' hb
    | false =>
      simp only [Bool.false_eq_true, if_false]
      exact hb

/-- fillRequests preserves the min(peerMaxRequests, 32) cap. -/
theorem fillRequests_bound (c : Connection) (cands : List RequestStrategy.Request)
    (h : c.requests.length ≤ min c.peerMaxRequests 32) :
    (fillRequests c cands).requests.length ≤ min (fillRequests c cands).peerMaxRequests 32 := by
  unfold fillRequests
  by_cases hg : (c.interested && (c.peerChoked || c.requestsLowWater < c.requests.length)) = true
  · rw [if_pos hg]
    exact h
  · rw [if_neg hg]
    exact fillLoop_bound cands c h

end ClientSched

section CapTheorems

open RequestStrategy

/-- C2: a scheduler pass never leaves a peer above its request cap: the
per-connection fillRequests keeps outstanding requests at or below
min(peerMaxRequests, 32), and every next-state DoRequests emits belongs
to a walked peer whose request count is at or below that peer's
maxRequests budget (enforced by canFitRequest). -/
theorem scheduler_request_cap :
    (∀ (c : ClientSched.Connection) (cands : List Request),
        c.requests.length ≤ min c.peerMaxRequests 32 →
        (ClientSched.fillRequests c cands).requests.length
          ≤ min (ClientSched.fillRequests c cands).peerMaxRequests 32)
    ∧ (∀ (ts : List Torrent) (x : Nat × PeerNextRequestState), x ∈ (DoRequests ts).1 →
        ∃ ot ∈ (runWalk ts).torrents, ∃ rp ∈ ot.peers,
          x.1 = rp.peer.id ∧ x.2 = rp.nextState ∧
          rp.nextState.requests.length ≤ rp.peer.maxRequests) := by
  constructor
  · exact fun c cands h => ClientSched.fillRequests_bound c cands h
  · intro ts x hx
    rcases gather_mem (runWalk ts) x hx with ⟨ot, hot, rp, hrp, hxe⟩
    exact ⟨ot, hot, rp, hrp, by rw [hxe], by rw [hxe],
      runWalk_bound ts ot hot rp hrp⟩

/-- Witness for the request cap: a fresh connection with
peerMaxRequests 5 offered one chunk stays within min(5, 32), and the
stealee's emitted next-state in the stealing scenario is a walked
peer's state within its budget. -/
theorem scheduler_request_cap_witness :
    ((ClientSched.fillRequests ⟨false, false, 0, [], 5⟩ [⟨0, ⟨0, 1⟩⟩]).requests.length
        ≤ min (ClientSched.fillRequests ⟨false, false, 0, [], 5⟩ [⟨0, ⟨0, 1⟩⟩]).peerMaxRequests 32)
    ∧ ∃ ot ∈ (runWalk stealingScenario).torrents, ∃ rp ∈ ot.peers,
        (1, PeerNextRequestState.mk true [⟨0, ⟨4, 1⟩⟩]).1 = rp.peer.id ∧
        (1, PeerNextRequestState.mk true [⟨0, ⟨4, 1⟩⟩]).2 = rp.nextState ∧
        rp.nextState.requests.length ≤ rp.peer.maxRequests := by
  constructor
  · exact scheduler_request_cap.1 ⟨false, false, 0, [], 5⟩ [⟨0, ⟨0, 1⟩⟩] (by decide)
  · exact scheduler_request_cap.2 stealingScenario (1, PeerNextRequestState.mk true [⟨0, ⟨4, 1⟩⟩])
      (by decide)

end CapTheorems

end CapLemmas



section BencodeTheorems

namespace Bencode

/-- A natural's decimal digit string is never empty. -/

theorem natToDigits_ne_nil (n : Nat) : natToDigits n ≠ [] := by
  rw [natToDigits]
  by_cases h : n < 10
  · rw [if_pos h]
    simp
  · rw [if_neg h]
    simp

/-- Every character of a decimal digit string is an ASCII digit. -/
theorem natToDigits_digits (n : Nat) : ∀ d ∈ natToDigits n, 48 ≤ d ∧ d ≤ 57 := by
  induction n using Nat.strong_induction_on with
  | _ n ih =>
    rw [natToDigits]
    by_cases h : n < 10
    · rw [if_pos h]
      intro d hd
      simp at hd
      omega
    · rw [if_neg h]
      intro d hd
      rcases List.mem_append.mp hd with hd | hd
      · exact ih (n / 10) (Nat.div_lt_self (by omega) (by omega)) d hd
      · simp at hd
        have hm : n % 10 < 10 := Nat.mod_lt _ (by omega)
        omega

/-- The digit accumulator stops at a non-digit. -/
theorem parseNatAux_cons_nonDigit {c : Nat} (rest : List Nat) (acc : Nat)
    (hc : isDigit c = false) : parseNatAux (c :: rest) acc = (acc, c :: rest) := by
  rw [parseNatAux, if_neg (by simp [hc])]

/-- Running the accumulator over an encoded number recovers the number. -/
theorem parseNatAux_append (n : Nat) : ∀ (acc : Nat) (rest : List Nat),
    parseNatAux (natToDigits n ++ rest) acc
      = parseNatAux rest (acc * 10 ^ (natToDigits n).length + n) := by
  induction n using Nat.strong_induction_on with
  | _ n ih =>
    intro acc rest
    rw [natToDigits]
    by_cases h : n < 10
    · rw [if_pos h]
      have hd : isDigit (n + 48) = true := by
        unfold isDigit
        simp only [Bool.and_eq_true, decide_eq_true_eq]
        omega
      simp only [List.singleton_append, pow_one]
      rw [parseNatAux, if_pos hd]
      congr 1
    · rw [if_neg h]
      rw [List.append_assoc]
      rw [ih (n / 10) (Nat.div_lt_self (by omega) (by omega)) acc ([n % 10 + 48] ++ rest)]
      have hd : isDigit (n % 10 + 48) = true := by
        unfold isDigit
        simp only [Bool.and_eq_true, decide_eq_true_eq]
        have hm : n % 10 < 10 := Nat.mod_lt _ (by omega)
        omega
      simp only [List.singleton_append]
      rw [parseNatAux, if_pos hd]
      simp only [List.length_append, List.length_cons, List.length_nil]
      congr 1
      rw [pow_succ, ← Nat.mul_assoc]
      generalize acc * 10 ^ (natToDigits (n / 10)).length = Q
      omega


/-- parseNat reads back an encoded natural, stopping at a non-digit. -/
theorem parseNat_encode (n : Nat) (c : Nat) (rest : List Nat) (hc : isDigit c = false) :
    parseNat (natToDigits n ++ c :: rest) = some (n, c :: rest) := by
  cases hnd : natToDigits n with
  | nil => exact absurd hnd (natToDigits_ne_nil n)
  | cons d ds =>
    have hdd : 48 ≤ d ∧ d ≤ 57 := natToDigits_digits n d (hnd ▸ List.mem_cons_self d ds)
    have hdig : isDigit d = true := by
      unfold isDigit
      simp only [Bool.and_eq_true, decide_eq_true_eq]
      omega
    have h0 := parseNatAux_append n 0 (c :: rest)
    rw [hnd, List.cons_append, parseNatAux, if_pos hdig,
      parseNatAux_cons_nonDigit rest _ hc] at h0
    rw [List.cons_append, parseNat, if_pos hdig]
    rw [show d - 48 = 0 * 10 + (d - 48) by omega, h0]
    simp

/-- parseStr reads back an encoded byte string exactly. -/
theorem parseStr_encode (s : List Nat) (rest : List Nat) :
    parseStr (encodeStr s ++ rest) = some (s, rest) := by
  unfold encodeStr parseStr
  rw [List.append_assoc, List.cons_append,
    parseNat_encode s.length 58 (s ++ rest) (by decide)]
  dsimp only
  rw [if_pos (by simp : s.length ≤ (s ++ rest).length)]
  simp [List.take_left, List.drop_left]

/-- parseIntBody reads back an encoded integer body up to its closing e. -/
theorem parseIntBody_encode (n : Int) (rest : List Nat) :
    parseIntBody (intToDigits n ++ 101 :: rest) = some (n, rest) := by
  unfold intToDigits
  by_cases hneg : n < 0
  · rw [if_pos hneg, List.cons_append]
    simp only [parseIntBody, if_true]
    rw [parseNat_encode (-n).toNat 101 rest (by decide)]
    have ht : (((-n).toNat : Int)) = -n := Int.toNat_of_nonneg (by omega)
    simp [ht]
  · rw [if_neg hneg]
    cases hnd : natToDigits n.toNat with
    | nil => exact absurd hnd (natToDigits_ne_nil n.toNat)
    | cons d ds =>
      have hdd : 48 ≤ d ∧ d ≤ 57 := natToDigits_digits n.toNat d (hnd ▸ List.mem_cons_self d ds)
      rw [List.cons_append]
      simp only [parseIntBody]
      rw [if_neg (by omega : ¬ d = 45)]
      have hp := parseNat_encode n.toNat 101 rest (by decide)
      rw [hnd, List.cons_append] at hp
      rw [hp]
      have ht : ((n.toNat : Int)) = n := Int.toNat_of_nonneg (by omega)
      simp [ht]


/-- A string encoding starts with a decimal digit. -/
theorem encodeStr_head (s : List Nat) :
    ∃ d t, encodeStr s = d :: t ∧ 48 ≤ d ∧ d ≤ 57 := by
  unfold encodeStr
  cases hnd : natToDigits s.length with
  | nil => exact absurd hnd (natToDigits_ne_nil s.length)
  | cons d ds =>
    have hdd := natToDigits_digits s.length d (hnd ▸ List.mem_cons_self d ds)
    exact ⟨d, ds ++ 58 :: s, by rw [List.cons_append], hdd.1, hdd.2⟩

/-- No value encoding starts with the terminator e. -/
theorem encode_head (v : Value) :
    ∃ d t, encode v = d :: t ∧ d ≠ 101 := by
  cases v with
  | int n => exact ⟨105, _, rfl, by decide⟩
  | str s =>
    rcases encodeStr_head s with ⟨d, t, he, h1, h2⟩
    exact ⟨d, t, he, by omega⟩
  | list vs => exact ⟨108, _, rfl, by decide⟩
  | dict es => exact ⟨100, _, rfl, by decide⟩

mutual

/-- The fuel measure of a value is below its encoding length. -/
theorem sizeB_lt_encode : (v : Value) → sizeB v + 1 ≤ (encode v).length
  | .int n => by
    have h := natToDigits_ne_nil (if n < 0 then (-n).toNat else n.toNat)
    have hlen : 1 ≤ (intToDigits n).length := by
      unfold intToDigits
      by_cases hneg : n < 0
      · rw [if_pos hneg]
        simp
      · rw [if_neg hneg]
        have := natToDigits_ne_nil n.toNat
        cases hnd : natToDigits n.toNat with
        | nil => exact absurd hnd this
        | cons d ds => simp [hnd]
    simp only [encode, sizeB, List.length_cons, List.length_append]
    omega
  | .str s => by
    have h : 1 ≤ (natToDigits s.length).length :=
      List.length_pos.mpr (natToDigits_ne_nil s.length)
    simp only [encode, encodeStr, sizeB, List.length_append, List.length_cons]
    omega
  | .list vs => by
    have h := sizeItems_le_encodeItems vs
    simp only [encode, sizeB, List.length_cons, List.length_append, List.length_singleton]
    omega
  | .dict es => by
    have h := sizeEntries_le_encodeEntries es
    simp only [encode, sizeB, List.length_cons, List.length_append, List.length_singleton]
    omega

/-- The fuel measure of items is at most their encoding length. -/
theorem sizeItems_le_encodeItems : (vs : List Value) → sizeItems vs ≤ (encodeItems vs).length
  | [] => by simp [sizeItems, encodeItems]
  | v :: vs => by
    have h1 := sizeB_lt_encode v
    have h2 := sizeItems_le_encodeItems vs
    simp only [sizeItems, encodeItems, List.length_append]
    omega

/-- The fuel measure of entries is at most their encoding length. -/
theorem sizeEntries_le_encodeEntries :
    (es : List (List Nat × Value)) → sizeEntries es ≤ (encodeEntries es).length
  | [] => by simp [sizeEntries, encodeEntries]
  | e :: es => by
    have h1 := sizeB_lt_encode e.2
    have h2 := sizeEntries_le_encodeEntries es
    simp only [sizeEntries, encodeEntries, List.length_append]
    omega

end


/-- With fuel above the size measure, the parser inverts the encoder,
leaving any trailing bytes untouched; proved mutually for values, list
items and dictionary entries by induction on the fuel. -/
theorem parse_encode_all : (f : Nat) →
    (∀ (v : Value) (rest : List Nat), sizeB v < f →
        parseVal f (encode v ++ rest) = some (v, rest)) ∧
    (∀ (vs : List Value) (rest : List Nat), sizeItems vs < f →
        parseItems f (encodeItems vs ++ 101 :: rest) = some (vs, rest)) ∧
    (∀ (es : List (List Nat × Value)) (rest : List Nat), sizeEntries es < f →
        parseEntries f (encodeEntries es ++ 101 :: rest) = some (es, rest))
  | 0 =>
    ⟨fun _ _ h => absurd h (Nat.not_lt_zero _),
     fun _ _ h => absurd h (Nat.not_lt_zero _),
     fun _ _ h => absurd h (Nat.not_lt_zero _)⟩
  | f + 1 => by
    have IH := parse_encode_all f
    refine ⟨fun v rest h => ?_, fun vs rest h => ?_, fun es rest h => ?_⟩
    · cases v with
      | int n =>
        simp only [encode, List.cons_append, List.append_assoc, List.singleton_append,
          List.nil_append, parseVal, if_true]
        rw [parseIntBody_encode]
        rfl
      | str s =>
        rcases encodeStr_head s with ⟨d, t, he, h1, h2⟩
        have hps := parseStr_encode s rest
        rw [he, List.cons_append] at hps
        simp only [encode, he, List.cons_append, parseVal]
        rw [if_neg (by omega : ¬ d = 105), if_neg (by omega : ¬ d = 108),
          if_neg (by omega : ¬ d = 100), hps]
        rfl
      | list l =>
        have hl : sizeItems l < f := by simp only [sizeB] at h; omega
        have hi := IH.2.1 l rest hl
        simp only [encode, List.cons_append, List.append_assoc, List.singleton_append,
          List.nil_append, parseVal, if_true]
        rw [if_neg (by decide : ¬ (108 : Nat) = 105), hi]
        rfl
      | dict ds =>
        have hd : sizeEntries ds < f := by simp only [sizeB] at h; omega
        have hi := IH.2.2 ds rest hd
        simp only [encode, List.cons_append, List.append_assoc, List.singleton_append,
          List.nil_append, parseVal, if_true]
        rw [if_neg (by decide : ¬ (100 : Nat) = 105), if_neg (by decide : ¬ (100 : Nat) = 108),
          hi]
        rfl
    · cases vs with
      | nil =>
        simp only [encodeItems, List.nil_append, parseItems, if_true]
      | cons v vs =>
        have h1 : sizeB v < f := by simp only [sizeItems] at h; omega
        have h2 : sizeItems vs < f := by simp only [sizeItems] at h; omega
        rcases encode_head v with ⟨d, t, he, hne⟩
        have hv := IH.1 v (encodeItems vs ++ 101 :: rest) h1
        have hvs := IH.2.1 vs rest h2
        rw [he, List.cons_append] at hv
        simp only [encodeItems, List.append_assoc, he, List.cons_append, parseItems,
          if_neg hne, hv, hvs]
    · cases es with
      | nil =>
        simp only [encodeEntries, List.nil_append, parseEntries, if_true]
      | cons e es =>
        obtain ⟨k, v⟩ := e
        have h1 : sizeB v < f := by simp only [sizeEntries] at h; omega
        have h2 : sizeEntries es < f := by simp only [sizeEntries] at h; omega
        rcases encodeStr_head k with ⟨d, t, he, hd1, hd2⟩
        have hstr := parseStr_encode k (encode v ++ (encodeEntries es ++ 101 :: rest))
        rw [he, List.cons_append] at hstr
        have hv := IH.1 v (encodeEntries es ++ 101 :: rest) h1
        have hes := IH.2.2 es rest h2
        simp only [encodeEntries, List.append_assoc, he, List.cons_append, parseEntries,
          if_neg (by omega : ¬ d = 101), hstr, hv, hes]

/-- C9: For every domain value v, marshalling succeeds and unmarshalling
the produced bencode bytes yields v again: Unmarshal (Marshal v) = v. -/
theorem Marshal_Unmarshal_roundtrip (v : Value) :
    ∃ data, Marshal v = some data ∧ Unmarshal data = some v := by
  refine ⟨encode v, rfl, ?_⟩
  unfold Unmarshal
  have hs := sizeB_lt_encode v
  have hp := (parse_encode_all ((encode v).length + 1)).1 v [] (by omega)
  rw [List.append_nil] at hp
  rw [hp]


end Bencode

end BencodeTheorems

end TorrentProofs
